import Mathlib

/-!
Verification of the Terraform repository analyzer / code modifier.

This file gives a shallow embedding, in Lean, of the path manipulation,
dependency-graph construction, URL cleaning, file validation, code-block
extraction and file-writing logic of `terraform_analyzer.py` and
`terraform_modifier.py`, together with theorems settling the specification
claims about that code.

Modelling conventions:
  * Python strings are Lean `String`s; the character-level algorithms work on
    `List Char` (`String.data`).
  * The filesystem is a finite model: a list of regular-file paths and a list
    of directory paths, both stored in canonical (`posixpath.normpath`) form.
    `os.path.exists` / `os.path.isdir` normalize their argument and look it up.
  * Calls to external services (the HCL parser, the generative model) are
    oracles passed in as functions; `none` models a raised exception.
  * All paths are treated as POSIX paths; the embedding works with absolute
    canonical paths, so `os.path.abspath` inside `os.path.relpath` coincides
    with `normpath`.
-/

/-! ### Character-list utilities -/

/-- The backtick character (written via its code point to keep the source free
of literal backticks). -/
def backtickChar : Char := Char.ofNat 96

/-- Boolean prefix test: `startsL p l` is true when `p` is a prefix of `l`.
Models Python's `str.startswith`. -/
def startsL : List Char → List Char → Bool
  | [], _ => true
  | _ :: _, [] => false
  | p :: ps, c :: cs => p == c && startsL ps cs

/-- Boolean suffix test, modelling Python's `str.endswith`. -/
def endsL (suf l : List Char) : Bool := startsL suf.reverse l.reverse

/-- Boolean substring test, modelling Python's `in` on strings. -/
def hasSubL (pat : List Char) : List Char → Bool
  | [] => pat.isEmpty
  | c :: cs => startsL pat (c :: cs) || hasSubL pat cs

/-- Split a character list at every `'/'`, as Python's `str.split('/')`. -/
def splitSlashes : List Char → List (List Char)
  | [] => [[]]
  | c :: cs =>
    if c == '/' then [] :: splitSlashes cs
    else
      match splitSlashes cs with
      | [] => [[c]]
      | h :: t => (c :: h) :: t

/-- Join components with `'/'`, as Python's `'/'.join`. -/
def joinComps : List (List Char) → List Char
  | [] => []
  | [c] => c
  | c :: cs => c ++ '/' :: joinComps cs

/-- Drop all trailing slashes, modelling Python's `str.rstrip('/')`. -/
def dropEndSlashes (cs : List Char) : List Char :=
  ((cs.reverse).dropWhile (fun c => c == '/')).reverse

/-- True when every character is a slash. -/
def allSlashes (cs : List Char) : Bool := cs.all (fun c => c == '/')

/-- The characters after the last `'/'` (the whole list when there is no
slash); this is `posixpath.basename`. -/
def afterLastSlash (cs : List Char) : List Char :=
  ((cs.reverse).takeWhile (fun c => !(c == '/'))).reverse

/-! ### posixpath operations, translated from CPython's `posixpath.py` -/

/-- The component `".."`. -/
def dotdotL : List Char := ['.', '.']

/-- The component-normalization loop of `posixpath.normpath`: empty and `"."`
components are dropped, `".."` pops a previous component unless the path is
relative and nothing is left to pop (then it is kept), or the previous kept
component is itself `".."` (then it is kept), or the path is rooted and
nothing is left (then it is dropped).  The accumulator is kept reversed. -/
def npComps (hasRoot : Bool) : List (List Char) → List (List Char) → List (List Char)
  | acc, [] => acc.reverse
  | acc, comp :: rest =>
    if comp == ([] : List Char) || comp == ['.'] then npComps hasRoot acc rest
    else if !(comp == dotdotL) then npComps hasRoot (comp :: acc) rest
    else
      match acc with
      | [] => if hasRoot then npComps hasRoot [] rest else npComps hasRoot [dotdotL] rest
      | a :: as => if a == dotdotL then npComps hasRoot (dotdotL :: a :: as) rest
                   else npComps hasRoot as rest

/-- `posixpath.normpath` on character lists: empty input gives `"."`; one or
two (but not three or more) leading slashes are preserved; components are
normalized by `npComps`. -/
def normpathL (cs : List Char) : List Char :=
  if cs == [] then ['.']
  else
    let slashes : Nat :=
      if startsL ['/', '/'] cs && !(startsL ['/', '/', '/'] cs) then 2
      else if startsL ['/'] cs then 1 else 0
    let body := joinComps (npComps (slashes != 0) [] (splitSlashes cs))
    let full := List.replicate slashes '/' ++ body
    if full == [] then ['.'] else full

/-- `posixpath.dirname` on character lists: everything up to the last slash,
with trailing slashes stripped unless the head is all slashes. -/
def dirnameL (cs : List Char) : List Char :=
  let tailLen := (afterLastSlash cs).length
  if tailLen == cs.length then []
  else
    let head := cs.take (cs.length - tailLen)
    if allSlashes head then head else dropEndSlashes head

/-- Two-argument `posixpath.join`: an absolute second argument wins; otherwise
the parts are glued with a single slash unless the first part is empty or
already ends with a slash. -/
def joinL (a b : List Char) : List Char :=
  if startsL ['/'] b then b
  else if a == ([] : List Char) || a.getLast? == some '/' then a ++ b
  else a ++ '/' :: b

/-- The nonempty components of the normalized path, as used by
`posixpath.relpath`. -/
def pathComps (cs : List Char) : List (List Char) :=
  (splitSlashes (normpathL cs)).filter (fun c => !(c == ([] : List Char)))

/-- Length of the longest common prefix of two component lists
(`os.path.commonprefix` on lists). -/
def commonLen : List (List Char) → List (List Char) → Nat
  | a :: as, b :: bs => if a == b then commonLen as bs + 1 else 0
  | _, _ => 0

/-- `posixpath.relpath path start` for canonical absolute paths: strip the
common component prefix, prepend one `".."` per remaining `start` component,
and return `"."` when nothing is left. -/
def relpathL (path start : List Char) : List Char :=
  let pl := pathComps path
  let sl := pathComps start
  let i := commonLen pl sl
  let rel := List.replicate (sl.length - i) dotdotL ++ pl.drop i
  if rel == ([] : List (List Char)) then ['.'] else joinComps rel

/-! ### String-level wrappers -/

/-- String-level `posixpath.normpath`. -/
def normpath (s : String) : String := ⟨normpathL s.data⟩

/-- String-level `posixpath.dirname`. -/
def dirnameStr (s : String) : String := ⟨dirnameL s.data⟩

/-- String-level `posixpath.basename`. -/
def basenameStr (s : String) : String := ⟨afterLastSlash s.data⟩

/-- String-level two-argument `os.path.join`. -/
def joinPath (a b : String) : String := ⟨joinL a.data b.data⟩

/-- String-level `os.path.relpath`. -/
def relpathStr (p start : String) : String := ⟨relpathL p.data start.data⟩

/-! ### Filesystem model -/

/-- A finite snapshot of the filesystem: the regular files and the
directories, all stored as canonical (normpath-fixed) path strings. -/
structure FileSystem where
  files : List String
  dirs : List String

/-- `os.path.exists`: the normalized path names a file or a directory. -/
def FileSystem.existsPath (fs : FileSystem) (p : String) : Bool :=
  fs.files.contains (normpath p) || fs.dirs.contains (normpath p)

/-- `os.path.isdir`: the normalized path names a directory. -/
def FileSystem.isDirPath (fs : FileSystem) (p : String) : Bool :=
  fs.dirs.contains (normpath p)

/-! ### `TerraformRepoAnalyzer.resolve_module_path` -/

/-- The characters of `"://"`, the scheme separator tested by
`resolve_module_path`. -/
def schemeSepL : List Char := [':', '/', '/']

/-- The test `re.match(r'^[a-zA-Z]:', source)`: an ASCII letter followed by a
colon at the start of the string (a Windows drive prefix). -/
def driveLike (cs : List Char) : Bool :=
  match cs with
  | a :: b :: _ => a.isAlpha && b == ':'
  | _ => false

/-- The first guard of `resolve_module_path`: the source starts with `"./"`
or `"../"`, or is exactly `"."` or `".."`. -/
def localStyle (s : String) : Bool :=
  startsL ['.', '/'] s.data || startsL ['.', '.', '/'] s.data || s == "." || s == ".."

/-- The second guard of `resolve_module_path`: not absolute, not
drive-prefixed, and without a `"://"` scheme separator. -/
def relativeStyle (s : String) : Bool :=
  !(startsL ['/'] s.data) && !(driveLike s.data) && !(hasSubL schemeSepL s.data)

/-- `os.path.normpath(os.path.join(os.path.dirname(parentFile), source))`,
the resolved candidate path built by `resolve_module_path`. -/
def resolvedJoin (source parentFile : String) : String :=
  ⟨normpathL (joinL (dirnameL parentFile.data) source.data)⟩

/-- `TerraformRepoAnalyzer.resolve_module_path`: local-style sources are
joined to the referencing file's directory unconditionally; other
relative-style sources are joined only when the joined path exists on disk;
everything else is returned unchanged. -/
def resolveModulePath (fs : FileSystem) (source parentFile : String) : String :=
  if localStyle source then resolvedJoin source parentFile
  else if relativeStyle source then
    (if fs.existsPath (resolvedJoin source parentFile) then resolvedJoin source parentFile
     else source)
  else source

/-- The reading of claim C1 as stated: the join is returned exactly when the
source is local-style, or is relative-style and resolves to an existing local
directory. -/
def claimC1Holds (fs : FileSystem) (s p : String) : Prop :=
  resolveModulePath fs s p =
    (if localStyle s || (relativeStyle s && fs.isDirPath (resolvedJoin s p)) then resolvedJoin s p
     else s)

/-- A filesystem in which `"/repo/outputs.tf"` is a regular file. -/
def fsFileOnly : FileSystem :=
  { files := ["/repo/outputs.tf", "/repo/main.tf"], dirs := ["/repo"] }

/-- C1, counterexample: for the relative source `"outputs.tf"` referenced from
`"/repo/main.tf"`, the joined path `"/repo/outputs.tf"` exists but is a file,
not a directory, yet `resolve_module_path` (which tests `os.path.exists`, not
`os.path.isdir`) still returns the joined path instead of the source
unchanged.  The claim as stated is therefore false. -/
theorem resolveModulePath_dirOnlyClaim_false :
    ¬ claimC1Holds fsFileOnly "outputs.tf" "/repo/main.tf" := by
  unfold claimC1Holds
  decide

/-- C1, amended: `resolve_module_path` returns the normalized join of the
referencing file's directory with the source exactly when the source is
local-style (`./`, `../`, bare `.` or `..`), or is relative-style (not
absolute, not drive-prefixed, no `"://"`) and the joined path exists on disk
as a file or a directory; in every other case the source is returned
unchanged. -/
theorem resolveModulePath_localResolution (fs : FileSystem) (s p : String) :
    (localStyle s = true ∨ (relativeStyle s = true ∧ fs.existsPath (resolvedJoin s p) = true) →
      resolveModulePath fs s p = resolvedJoin s p)
    ∧ (localStyle s = false →
        (relativeStyle s = false ∨ fs.existsPath (resolvedJoin s p) = false) →
      resolveModulePath fs s p = s) := by
  constructor
  · rintro (hl | ⟨hr, he⟩)
    · simp [resolveModulePath, hl]
    · by_cases hl : localStyle s
      · simp [resolveModulePath, hl]
      · simp [resolveModulePath, hl, hr, he]
  · rintro hl (hr | he)
    · simp [resolveModulePath, hl, hr]
    · by_cases hr' : relativeStyle s
      · simp [resolveModulePath, hl, hr', he]
      · simp [resolveModulePath, hl, hr']

/-- C1, witness: the amended characterization applied to the local-style
source `"./modules"` referenced from `"/repo/main.tf"`. -/
theorem resolveModulePath_localResolution_applied :
    resolveModulePath fsFileOnly "./modules" "/repo/main.tf" =
      resolvedJoin "./modules" "/repo/main.tf" :=
  (resolveModulePath_localResolution fsFileOnly "./modules" "/repo/main.tf").1
    (Or.inl (by decide))

/-! ### Dependency graph model (networkx `DiGraph` semantics) -/

/-- Attributes carried by a graph node; `networkx` stores an attribute dict,
so each attribute may be absent. -/
structure NodeAttrs where
  ntype : Option String
  npath : Option String
  ndescription : Option String
deriving DecidableEq

/-- Attributes carried by a module-dependency edge. -/
structure EdgeAttrs where
  etype : String
  moduleName : String
deriving DecidableEq

/-- A directed graph with attributed nodes and edges, in insertion order, as
built by `networkx.DiGraph`. -/
structure Graph where
  nodes : List (String × NodeAttrs)
  edges : List (String × String × EdgeAttrs)
deriving DecidableEq

/-- The empty graph. -/
def emptyDepGraph : Graph := ⟨[], []⟩

/-- Membership test for a node key. -/
def hasNode (g : Graph) (n : String) : Bool := g.nodes.any (fun p => p.1 == n)

/-- The attributes of a node, when present. -/
def lookupNode (g : Graph) (n : String) : Option NodeAttrs :=
  (g.nodes.find? (fun p => p.1 == n)).map Prod.snd

/-- `add_node(n, type='file', path=fp)`: a new node is appended; an existing
node has `type` and `path` merged into its attribute dict, keeping any
description already stored. -/
def addFileNode (g : Graph) (n fp : String) : Graph :=
  if hasNode g n then
    { g with nodes := g.nodes.map (fun p =>
        if p.1 == n then (p.1, { p.2 with ntype := some "file", npath := some fp }) else p) }
  else { g with nodes := g.nodes ++ [(n, ⟨some "file", some fp, none⟩)] }

/-- `networkx` creates a node with an empty attribute dict when an edge
endpoint is not yet a node. -/
def ensureNode (g : Graph) (n : String) : Graph :=
  if hasNode g n then g else { g with nodes := g.nodes ++ [(n, ⟨none, none, none⟩)] }

/-- Key test for an edge entry. -/
def edgeKey (a b : String) (e : String × String × EdgeAttrs) : Bool :=
  e.1 == a && e.2.1 == b

/-- The attributes of the edge `a → b`, when present. -/
def lookupEdge (g : Graph) (a b : String) : Option EdgeAttrs :=
  (g.edges.find? (edgeKey a b)).map (fun e => e.2.2)

/-- Number of stored entries for the edge `a → b` (a well-formed `networkx`
graph has at most one). -/
def edgeCount (g : Graph) (a b : String) : Nat :=
  (g.edges.filter (edgeKey a b)).length

/-- `add_edge(a, b, **attrs)`: missing endpoints are added as attribute-less
nodes; an existing edge has its attributes replaced; otherwise the edge is
appended. -/
def addEdge (g : Graph) (a b : String) (at2 : EdgeAttrs) : Graph :=
  let g1 := ensureNode (ensureNode g a) b
  if g1.edges.any (edgeKey a b) then
    { g1 with edges := g1.edges.map (fun e => if edgeKey a b e then (a, b, at2) else e) }
  else { g1 with edges := g1.edges ++ [(a, b, at2)] }

/-! ### Parsed Terraform content and module extraction -/

/-- A module block's configuration: its attribute dict, with the values that
matter here (the `source` attribute) as strings. -/
abbrev ModuleConfig := List (String × String)

/-- The value under the top-level `module` key as produced by `hcl2.load`:
either a single mapping from module names to configurations, or a list of
such mappings. -/
inductive ModuleVal where
  | mdict : List (String × ModuleConfig) → ModuleVal
  | mlist : List (List (String × ModuleConfig)) → ModuleVal

/-- A parsed Terraform file: the optional `module` entry plus the remaining
top-level keys (whose values are irrelevant to dependency extraction but
decide the dict's truthiness). -/
structure ParsedTf where
  moduleVal : Option ModuleVal
  otherKeys : List String

/-- Python's truthiness of the parsed dict: an empty dict is falsy. -/
def parsedIsEmpty (p : ParsedTf) : Bool :=
  p.moduleVal.isNone && p.otherKeys.isEmpty

/-- `parse_terraform_file`: the raw parse is an oracle; `none` models a read
or HCL-parse exception, which the function catches, returning an empty
dict. -/
def parseTerraformFile (rawParse : String → Option ParsedTf) (fp : String) : ParsedTf :=
  (rawParse fp).getD ⟨none, []⟩

/-- A module dependency record as produced by
`extract_module_dependencies`. -/
structure ModuleDep where
  dtype : String
  dname : String
  dsource : String
deriving DecidableEq

/-- The inner loop of `extract_module_dependencies` over one
name-to-configuration mapping: each configuration containing a `source` key
contributes one record, in order. -/
def depsOfPairs : List (String × ModuleConfig) → List ModuleDep
  | [] => []
  | (n, cfg) :: rest =>
    match cfg.lookup "source" with
    | some s => ⟨"module", n, s⟩ :: depsOfPairs rest
    | none => depsOfPairs rest

/-- `extract_module_dependencies`: handles both the single-mapping and the
list-of-mappings encodings of the `module` block; no `module` key gives no
records. -/
def extractModuleDependencies (p : ParsedTf) : List ModuleDep :=
  match p.moduleVal with
  | none => []
  | some (ModuleVal.mdict m) => depsOfPairs m
  | some (ModuleVal.mlist ms) => (ms.map depsOfPairs).flatten

/-! ### `glob.glob(f"{dir}/*.tf")` -/

/-- The suffix `".tf"`. -/
def tfSuffixL : List Char := ['.', 't', 'f']

/-- `glob.glob(f"{dir}/*.tf")`: the directory entries (regular files and
subdirectories alike) whose parent is `dir` and whose name ends in `".tf"`;
`*` does not match names starting with a dot, so dotted entries are excluded.
Results are returned as the pattern's directory joined to the entry name. -/
def globTf (fs : FileSystem) (dir : String) : List String :=
  let nd := normpathL dir.data
  ((fs.files ++ fs.dirs).filter (fun e =>
      dirnameL e.data == nd
      && endsL tfSuffixL (afterLastSlash e.data)
      && !(startsL ['.'] (afterLastSlash e.data)))).map
    (fun e => ⟨dir.data ++ '/' :: afterLastSlash e.data⟩)

/-! ### `build_dependency_graph` -/

/-- Processing of one dependency record inside `build_dependency_graph`:
resolve the source, and when the resolved path is an existing directory add
one `module_dependency` edge per `glob`-matched `.tf` entry inside it;
otherwise leave the graph unchanged. -/
def processDep (fs : FileSystem) (localDir : String) (g : Graph) (fileRel filePath : String)
    (dep : ModuleDep) : Graph :=
  if dep.dtype == "module" then
    let mp := resolveModulePath fs dep.dsource filePath
    if fs.existsPath mp then
      if fs.isDirPath mp then
        let mfiles := globTf fs mp
        if mfiles.isEmpty then g
        else mfiles.foldl
          (fun h mf => addEdge h fileRel (relpathStr mf localDir) ⟨"module_dependency", dep.dname⟩) g
      else g
    else g
  else g

/-- Processing of one Terraform file inside `build_dependency_graph`: an
empty parse result is skipped; otherwise every extracted dependency is
processed. -/
def processFile (fs : FileSystem) (localDir : String) (parse : String → ParsedTf) (g : Graph)
    (fp : String) : Graph :=
  if parsedIsEmpty (parse fp) then g
  else (extractModuleDependencies (parse fp)).foldl
    (fun h d => processDep fs localDir h (relpathStr fp localDir) fp d) g

/-- `build_dependency_graph`: first every found Terraform file is added as a
`file` node under its repository-relative path, then each file's module
dependencies are turned into edges. -/
def buildDependencyGraph (fs : FileSystem) (localDir : String) (tfFiles : List String)
    (parse : String → ParsedTf) : Graph :=
  let g0 := tfFiles.foldl (fun g fp => addFileNode g (relpathStr fp localDir) fp) emptyDepGraph
  tfFiles.foldl (processFile fs localDir parse) g0

/-! ### `generate_file_descriptions` and `analyze_repository` -/

/-- Python's `\s` test for the ASCII range, also used by `str.strip()`. -/
def pyIsSpaceC (c : Char) : Bool :=
  c == ' ' || c == '\t' || c == '\n' || c == '\r' || c == Char.ofNat 11 || c == Char.ofNat 12

/-- `str.strip()` on character lists. -/
def pyStripL (cs : List Char) : List Char :=
  ((cs.dropWhile pyIsSpaceC).reverse.dropWhile pyIsSpaceC).reverse

/-- `str.strip()` on strings. -/
def pyStrip (s : String) : String := ⟨pyStripL s.data⟩

/-- Truthiness of `node_attrs.get('description')`: present and nonempty. -/
def truthyDesc (a : NodeAttrs) : Bool :=
  match a.ndescription with
  | some d => !(d == "")
  | none => false

/-- The fallback description used on any failure. -/
def defaultDescription : String := "Terraform configuration file"

/-- Per-node step of `generate_file_descriptions`: nodes with a truthy
description are skipped; otherwise, when model initialization succeeded, the
generation oracle's stripped answer (or the default, when reading or
generation raised) is stored; when initialization failed every remaining node
gets the default. -/
def describeNode (initOk : Bool) (describe : String → Option String) (n : String)
    (a : NodeAttrs) : NodeAttrs :=
  if truthyDesc a then a
  else if initOk then
    { a with ndescription := some (((describe n).map pyStrip).getD defaultDescription) }
  else { a with ndescription := some defaultDescription }

/-- `generate_file_descriptions` over the whole graph. -/
def generateFileDescriptions (initOk : Bool) (describe : String → Option String)
    (g : Graph) : Graph :=
  { g with nodes := g.nodes.map (fun p => (p.1, describeNode initOk describe p.1 p.2)) }

/-- `analyze_repository` after cloning: build the dependency graph, then
generate the per-file descriptions. -/
def analyzeRepository (fs : FileSystem) (localDir : String) (tfFiles : List String)
    (rawParse : String → Option ParsedTf) (initOk : Bool)
    (describe : String → Option String) : Graph :=
  generateFileDescriptions initOk describe
    (buildDependencyGraph fs localDir tfFiles (parseTerraformFile rawParse))

/-! ### List lemmas for the graph operations -/

theorem find?_append_of_any_false {α} (p : α → Bool) :
    ∀ es ts : List α, es.any p = false → (es ++ ts).find? p = ts.find? p := by
  intro es ts h
  induction es with
  | nil => rfl
  | cons e t ih =>
    simp only [List.any_cons, Bool.or_eq_false_iff] at h
    simpa [List.find?_cons, h.1] using ih h.2

theorem edgeKey_self (a b : String) (d : EdgeAttrs) : edgeKey a b (a, b, d) = true := by
  simp [edgeKey]

theorem edgeKey_other {a b a' b' : String} (hne : ¬(a' = a ∧ b' = b))
    (e : String × String × EdgeAttrs) (h : edgeKey a b e = true) :
    edgeKey a' b' e = false := by
  simp only [edgeKey, Bool.and_eq_true, beq_iff_eq] at h
  by_contra hc
  simp only [Bool.not_eq_false, edgeKey, Bool.and_eq_true, beq_iff_eq] at hc
  exact hne ⟨by rw [← hc.1, h.1], by rw [← hc.2, h.2]⟩

theorem find?_map_replace (a b : String) (d : EdgeAttrs) :
    ∀ es : List (String × String × EdgeAttrs), es.any (edgeKey a b) = true →
      (es.map (fun e => if edgeKey a b e then (a, b, d) else e)).find? (edgeKey a b)
        = some (a, b, d) := by
  intro es h
  induction es with
  | nil => simp at h
  | cons e t ih =>
    cases hk : edgeKey a b e with
    | true => simp [List.find?_cons, hk, edgeKey_self]
    | false =>
      simp only [List.any_cons, hk, Bool.false_or] at h
      simpa [List.find?_cons, hk] using ih h

theorem find?_map_replace_other {a b a' b' : String} (d : EdgeAttrs)
    (hne : ¬(a' = a ∧ b' = b)) :
    ∀ es : List (String × String × EdgeAttrs),
      (es.map (fun e => if edgeKey a b e then (a, b, d) else e)).find? (edgeKey a' b')
        = es.find? (edgeKey a' b') := by
  intro es
  induction es with
  | nil => rfl
  | cons e t ih =>
    cases hk : edgeKey a b e with
    | true =>
      have h1 : edgeKey a' b' e = false := edgeKey_other hne e hk
      have h2 : edgeKey a' b' (a, b, d) = false := edgeKey_other hne _ (edgeKey_self a b d)
      simpa [List.find?_cons, hk, h1, h2] using ih
    | false =>
      cases hk' : edgeKey a' b' e with
      | true => simp [List.find?_cons, hk, hk']
      | false => simpa [List.find?_cons, hk, hk'] using ih

theorem filter_map_replace_self (a b : String) (d : EdgeAttrs) :
    ∀ es : List (String × String × EdgeAttrs),
      ((es.map (fun e => if edgeKey a b e then (a, b, d) else e)).filter (edgeKey a b)).length
        = (es.filter (edgeKey a b)).length := by
  intro es
  induction es with
  | nil => rfl
  | cons e t ih =>
    cases hk : edgeKey a b e with
    | true => simp [List.filter_cons, hk, edgeKey_self, ih]
    | false => simp [List.filter_cons, hk, ih]

theorem filter_map_replace_other {a b a' b' : String} (d : EdgeAttrs)
    (hne : ¬(a' = a ∧ b' = b)) :
    ∀ es : List (String × String × EdgeAttrs),
      ((es.map (fun e => if edgeKey a b e then (a, b, d) else e)).filter (edgeKey a' b')).length
        = (es.filter (edgeKey a' b')).length := by
  intro es
  induction es with
  | nil => rfl
  | cons e t ih =>
    cases hk : edgeKey a b e with
    | true =>
      have h1 : edgeKey a' b' e = false := edgeKey_other hne e hk
      have h2 : edgeKey a' b' (a, b, d) = false := edgeKey_other hne _ (edgeKey_self a b d)
      simp [List.filter_cons, hk, h1, h2, ih]
    | false =>
      cases hk' : edgeKey a' b' e with
      | true => simp [List.filter_cons, hk, hk', ih]
      | false => simp [List.filter_cons, hk, hk', ih]

theorem filter_pos_of_any {α} (p : α → Bool) (es : List α) (h : es.any p = true) :
    0 < (es.filter p).length := by
  obtain ⟨x, hx, hp⟩ := List.any_eq_true.mp h
  have : x ∈ es.filter p := List.mem_filter.mpr ⟨hx, hp⟩
  exact List.length_pos.mpr (List.ne_nil_of_mem this)

/-! ### Behaviour of `addEdge` -/

theorem ensureNode_edges (g : Graph) (n : String) : (ensureNode g n).edges = g.edges := by
  unfold ensureNode
  split <;> rfl

theorem addEdge_edges (g : Graph) (a b : String) (d : EdgeAttrs) :
    (addEdge g a b d).edges =
      (if g.edges.any (edgeKey a b) then
        g.edges.map (fun e => if edgeKey a b e then (a, b, d) else e)
      else g.edges ++ [(a, b, d)]) := by
  unfold addEdge
  simp only [ensureNode_edges]
  split <;> rfl

theorem lookupEdge_addEdge_self (g : Graph) (a b : String) (d : EdgeAttrs) :
    lookupEdge (addEdge g a b d) a b = some d := by
  unfold lookupEdge
  rw [addEdge_edges]
  cases h : g.edges.any (edgeKey a b) with
  | true => simp [h, find?_map_replace a b d g.edges h]
  | false => simp [h, find?_append_of_any_false (edgeKey a b) g.edges _ h, List.find?_cons,
      edgeKey_self]

theorem lookupEdge_addEdge_other {a b a' b' : String} (g : Graph) (d : EdgeAttrs)
    (hne : ¬(a' = a ∧ b' = b)) :
    lookupEdge (addEdge g a b d) a' b' = lookupEdge g a' b' := by
  unfold lookupEdge
  rw [addEdge_edges]
  cases h : g.edges.any (edgeKey a b) with
  | true => simp [find?_map_replace_other d hne g.edges]
  | false =>
    have hk : edgeKey a' b' (a, b, d) = false := edgeKey_other hne _ (edgeKey_self a b d)
    have : (g.edges ++ [(a, b, d)]).find? (edgeKey a' b') = g.edges.find? (edgeKey a' b') := by
      induction g.edges with
      | nil => simp [List.find?_cons, hk]
      | cons e t ih =>
        cases hk' : edgeKey a' b' e with
        | true => simp [List.find?_cons, hk']
        | false => simpa [List.find?_cons, hk'] using ih
    simp [this]

theorem edgeCount_addEdge_self (g : Graph) (a b : String) (d : EdgeAttrs)
    (hok : edgeCount g a b ≤ 1) :
    edgeCount (addEdge g a b d) a b = 1 := by
  unfold edgeCount at *
  rw [addEdge_edges]
  cases h : g.edges.any (edgeKey a b) with
  | true =>
    rw [if_pos rfl, filter_map_replace_self a b d g.edges]
    exact Nat.le_antisymm hok (filter_pos_of_any _ _ h)
  | false =>
    have : g.edges.filter (edgeKey a b) = [] :=
      List.filter_eq_nil_iff.mpr (fun x hx => by
        have := List.any_eq_false.mp h x hx
        simpa using this)
    simp [List.filter_append, this, List.filter_cons, edgeKey_self]

theorem edgeCount_addEdge_other {a b a' b' : String} (g : Graph) (d : EdgeAttrs)
    (hne : ¬(a' = a ∧ b' = b)) :
    edgeCount (addEdge g a b d) a' b' = edgeCount g a' b' := by
  unfold edgeCount
  rw [addEdge_edges]
  cases h : g.edges.any (edgeKey a b) with
  | true => rw [if_pos rfl, filter_map_replace_other d hne g.edges]
  | false =>
    have hk : edgeKey a' b' (a, b, d) = false := edgeKey_other hne _ (edgeKey_self a b d)
    simp [List.filter_append, List.filter_cons, hk]

theorem edgeCount_addEdge_le (g : Graph) (a b : String) (d : EdgeAttrs)
    (hok : ∀ x y, edgeCount g x y ≤ 1) (x y : String) :
    edgeCount (addEdge g a b d) x y ≤ 1 := by
  by_cases hxy : x = a ∧ y = b
  · obtain ⟨hx, hy⟩ := hxy
    subst hx; subst hy
    rw [edgeCount_addEdge_self g x y d (hok x y)]
  · rw [edgeCount_addEdge_other g d hxy]
    exact hok x y

/-! ### Folding `addEdge` over a target list -/

theorem foldl_addEdge_spec (rel : String) (d : EdgeAttrs) :
    ∀ (ts : List String) (g : Graph), (∀ x y, edgeCount g x y ≤ 1) →
      (∀ x y, edgeCount (ts.foldl (fun h t => addEdge h rel t d) g) x y ≤ 1)
      ∧ (∀ t ∈ ts, lookupEdge (ts.foldl (fun h t => addEdge h rel t d) g) rel t = some d
          ∧ edgeCount (ts.foldl (fun h t => addEdge h rel t d) g) rel t = 1)
      ∧ (∀ a b, ¬(a = rel ∧ b ∈ ts) →
          lookupEdge (ts.foldl (fun h t => addEdge h rel t d) g) a b = lookupEdge g a b
          ∧ edgeCount (ts.foldl (fun h t => addEdge h rel t d) g) a b = edgeCount g a b) := by
  intro ts
  induction ts with
  | nil =>
    intro g hok
    exact ⟨hok, by simp, fun a b _ => ⟨rfl, rfl⟩⟩
  | cons t ts ih =>
    intro g hok
    simp only [List.foldl_cons]
    have hok1 : ∀ x y, edgeCount (addEdge g rel t d) x y ≤ 1 :=
      edgeCount_addEdge_le g rel t d hok
    obtain ⟨iok, imem, ioth⟩ := ih (addEdge g rel t d) hok1
    refine ⟨iok, ?_, ?_⟩
    · intro t' ht'
      rcases List.mem_cons.mp ht' with h | h
      · subst h
        by_cases hmem : t' ∈ ts
        · exact imem t' hmem
        · obtain ⟨hl, hc⟩ := ioth rel t' (fun hc => hmem hc.2)
          refine ⟨?_, ?_⟩
          · rw [hl]; exact lookupEdge_addEdge_self g rel t' d
          · rw [hc]; exact edgeCount_addEdge_self g rel t' d (hok rel t')
      · exact imem t' h
    · intro a b hab
      have h1 : ¬(a = rel ∧ b ∈ ts) := fun hc => hab ⟨hc.1, List.mem_cons_of_mem _ hc.2⟩
      have h2 : ¬(a = rel ∧ b = t) := fun hc =>
        hab ⟨hc.1, by rw [hc.2]; exact List.mem_cons_self _ _⟩
      obtain ⟨hl, hc⟩ := ioth a b h1
      refine ⟨?_, ?_⟩
      · rw [hl]; exact lookupEdge_addEdge_other g d h2
      · rw [hc]; exact edgeCount_addEdge_other g d h2

/-- Under the hypotheses of C2, `processDep` is the fold of `addEdge` over the
relative paths of the glob-matched entries (also when the glob is empty, since
folding over the empty list changes nothing). -/
theorem processDep_eq_foldl (fs : FileSystem) (localDir : String) (g : Graph)
    (rel fp : String) (dep : ModuleDep)
    (hm : dep.dtype = "module")
    (hex : fs.existsPath (resolveModulePath fs dep.dsource fp) = true)
    (hdir : fs.isDirPath (resolveModulePath fs dep.dsource fp) = true) :
    processDep fs localDir g rel fp dep =
      ((globTf fs (resolveModulePath fs dep.dsource fp)).map
          (fun mf => relpathStr mf localDir)).foldl
        (fun h t => addEdge h rel t ⟨"module_dependency", dep.dname⟩) g := by
  cases hge : (globTf fs (resolveModulePath fs dep.dsource fp)).isEmpty with
  | true =>
    have hnil : globTf fs (resolveModulePath fs dep.dsource fp) = [] :=
      List.isEmpty_iff.mp hge
    simp [processDep, hm, hex, hdir, hnil]
  | false =>
    simp only [processDep, hm, beq_self_eq_true, if_true, hex, hdir, hge,
      Bool.false_eq_true, if_false, List.foldl_map]

/-- A filesystem whose module directory `"/r/mod"` contains two regular
`.tf` files, plus a `.tf.json` file that the glob must not match. -/
def fsGlob : FileSystem :=
  { files := ["/r/main.tf", "/r/mod/x.tf", "/r/mod/y.tf", "/r/mod/z.tf.json"],
    dirs := ["/r", "/r/mod"] }

/-- A graph holding the two file nodes of `fsGlob` and no edges, as produced
by the node-adding pass of `build_dependency_graph`. -/
def gTwoNodes : Graph :=
  ⟨[("main.tf", ⟨some "file", some "/r/main.tf", none⟩),
    ("mod/x.tf", ⟨some "file", some "/r/mod/x.tf", none⟩)], []⟩

/-- A filesystem whose module directory contains only a dot-prefixed
`.tf` file. -/
def fsHidden : FileSystem :=
  { files := ["/r/main.tf", "/r/mod/.h.tf"], dirs := ["/r", "/r/mod"] }

/-- A graph holding only the `main.tf` node. -/
def gOneNode : Graph := ⟨[("main.tf", ⟨some "file", some "/r/main.tf", none⟩)], []⟩

/-- C2, counterexample: `"/r/mod/.h.tf"` is a `.tf` file directly inside the
resolved, existing module directory `"/r/mod"`, yet processing the dependency
leaves the graph unchanged — no edge is added for it, because `glob`'s `*`
pattern does not match names that start with a dot.  The claim that an edge
is added for each `.tf` file directly inside the directory is therefore
false. -/
theorem processDep_hiddenTf_noEdge :
    fsHidden.files.contains "/r/mod/.h.tf" = true
    ∧ dirnameStr "/r/mod/.h.tf" = "/r/mod"
    ∧ endsL tfSuffixL ".h.tf".data = true
    ∧ resolveModulePath fsHidden "./mod" "/r/main.tf" = "/r/mod"
    ∧ fsHidden.isDirPath "/r/mod" = true
    ∧ processDep fsHidden "/r" gOneNode "main.tf" "/r/main.tf" ⟨"module", "m", "./mod"⟩
        = gOneNode := by
  decide

/-- C2, amended: for a module dependency whose resolved path is an existing
directory, `build_dependency_graph` adds exactly one directed edge from the
referencing file's repository-relative path to the repository-relative path of
each directory entry directly inside that directory whose name ends in `.tf`
and does not start with a dot (`glob` neither recurses, nor matches `.tf.json`,
nor matches dot-prefixed names, nor distinguishes files from subdirectories);
every such edge carries type `module_dependency` and the referencing block's
module name, and every other edge of the graph is left unchanged. -/
theorem processDep_moduleDir_edges (fs : FileSystem) (localDir : String) (g : Graph)
    (rel fp : String) (dep : ModuleDep)
    (hm : dep.dtype = "module")
    (hex : fs.existsPath (resolveModulePath fs dep.dsource fp) = true)
    (hdir : fs.isDirPath (resolveModulePath fs dep.dsource fp) = true)
    (hok : ∀ x y, edgeCount g x y ≤ 1) :
    (∀ t ∈ (globTf fs (resolveModulePath fs dep.dsource fp)).map
        (fun mf => relpathStr mf localDir),
      lookupEdge (processDep fs localDir g rel fp dep) rel t
          = some ⟨"module_dependency", dep.dname⟩
      ∧ edgeCount (processDep fs localDir g rel fp dep) rel t = 1)
    ∧ (∀ a b, ¬(a = rel ∧ b ∈ (globTf fs (resolveModulePath fs dep.dsource fp)).map
        (fun mf => relpathStr mf localDir)) →
      lookupEdge (processDep fs localDir g rel fp dep) a b = lookupEdge g a b) := by
  rw [processDep_eq_foldl fs localDir g rel fp dep hm hex hdir]
  obtain ⟨_, hmem, hoth⟩ := foldl_addEdge_spec rel ⟨"module_dependency", dep.dname⟩
    ((globTf fs (resolveModulePath fs dep.dsource fp)).map (fun mf => relpathStr mf localDir))
    g hok
  exact ⟨hmem, fun a b hab => (hoth a b hab).1⟩

/-- C2, witness: in `fsGlob`, processing the module block `vpc` with source
`"./mod"` from `"/r/main.tf"` yields exactly one `module_dependency` edge to
`"mod/x.tf"`. -/
theorem processDep_moduleDir_edges_applied :
    lookupEdge (processDep fsGlob "/r" gTwoNodes "main.tf" "/r/main.tf"
        ⟨"module", "vpc", "./mod"⟩) "main.tf" "mod/x.tf"
      = some ⟨"module_dependency", "vpc"⟩
    ∧ edgeCount (processDep fsGlob "/r" gTwoNodes "main.tf" "/r/main.tf"
        ⟨"module", "vpc", "./mod"⟩) "main.tf" "mod/x.tf" = 1 :=
  (processDep_moduleDir_edges fsGlob "/r" gTwoNodes "main.tf" "/r/main.tf"
      ⟨"module", "vpc", "./mod"⟩ rfl (by decide) (by decide)
      (fun x y => by simp [edgeCount, gTwoNodes])).1
    "mod/x.tf" (by decide)

/-- A filesystem whose module directory `"/r/mod"` contains no `.tf` file at
all — its only entry is the subdirectory `"/r/mod/child.tf"`, whose name ends
in `.tf`. -/
def fsTfSubdir : FileSystem :=
  { files := ["/r/main.tf"],
    dirs := ["/r", "/r/mod", "/r/mod/child.tf"] }

/-- C3, counterexample: the resolved module directory `"/r/mod"` contains no
`.tf` file directly inside it (no file in the filesystem has it as parent),
yet processing the dependency changes the graph: `glob`'s pattern
`"*.tf"` also matches the subdirectory `"/r/mod/child.tf"`, so an edge
`main.tf → mod/child.tf` is added.  The claim that such a dependency leaves
the graph's node and edge sets unchanged is therefore false. -/
theorem processDep_tfSubdir_edge :
    (∀ f ∈ fsTfSubdir.files, dirnameStr f ≠ "/r/mod")
    ∧ resolveModulePath fsTfSubdir "./mod" "/r/main.tf" = "/r/mod"
    ∧ fsTfSubdir.isDirPath "/r/mod" = true
    ∧ processDep fsTfSubdir "/r" gOneNode "main.tf" "/r/main.tf"
        ⟨"module", "m", "./mod"⟩ ≠ gOneNode
    ∧ lookupEdge (processDep fsTfSubdir "/r" gOneNode "main.tf" "/r/main.tf"
        ⟨"module", "m", "./mod"⟩) "main.tf" "mod/child.tf"
        = some ⟨"module_dependency", "m"⟩ := by
  decide

/-- C3, amended: a module dependency whose resolved path does not exist, or is
not a directory, or is a directory in which `glob` matches no `.tf`-named
entry (no non-hidden directory entry — regular file or subdirectory — whose
name ends in `.tf`), changes nothing: the graph (nodes and edges alike) is
returned as it was, and the embedding is a total function, so no error is
raised.  A directory containing no `.tf` file can still be glob-matched
through a `.tf`-named subdirectory, and then an edge is added. -/
theorem processDep_skip_noChange (fs : FileSystem) (localDir : String) (g : Graph)
    (rel fp : String) (dep : ModuleDep) (hm : dep.dtype = "module") :
    (fs.existsPath (resolveModulePath fs dep.dsource fp) = false →
        processDep fs localDir g rel fp dep = g)
    ∧ (fs.isDirPath (resolveModulePath fs dep.dsource fp) = false →
        processDep fs localDir g rel fp dep = g)
    ∧ (globTf fs (resolveModulePath fs dep.dsource fp) = [] →
        processDep fs localDir g rel fp dep = g) := by
  refine ⟨fun h => ?_, fun h => ?_, fun h => ?_⟩ <;> simp [processDep, hm, h]

/-- C3, witness: the source `"./missing"` resolves to `"/r/missing"`, which
does not exist in `fsHidden`, and the graph is unchanged. -/
theorem processDep_skip_noChange_applied :
    processDep fsHidden "/r" gOneNode "main.tf" "/r/main.tf"
        ⟨"module", "m", "./missing"⟩ = gOneNode :=
  (processDep_skip_noChange fsHidden "/r" gOneNode "main.tf" "/r/main.tf"
      ⟨"module", "m", "./missing"⟩ rfl).1 (by decide)

/-! ### C4: `extract_module_dependencies` -/

theorem depsOfPairs_eq (m : List (String × ModuleConfig)) :
    depsOfPairs m = m.filterMap
      (fun nc => (nc.2.lookup "source").map
        (fun s => (⟨"module", nc.1, s⟩ : ModuleDep))) := by
  induction m with
  | nil => rfl
  | cons h t ih =>
    obtain ⟨n, cfg⟩ := h
    cases hl : cfg.lookup "source" <;>
      simp [depsOfPairs, hl, ih, List.filterMap_cons]

/-- C4: `extract_module_dependencies` supports both encodings of the parsed
`module` block.  For a single mapping it returns, in block order, exactly one
record `{type := "module", name, source}` per named configuration that has a
`source` key; for a list of mappings it concatenates the per-mapping results
in order; configurations without `source`, and parsed content without a
`module` key, contribute nothing. -/
theorem extractModuleDependencies_records (m : List (String × ModuleConfig))
    (ms : List (List (String × ModuleConfig))) (ks : List String) :
    extractModuleDependencies ⟨some (ModuleVal.mdict m), ks⟩
        = m.filterMap (fun nc => (nc.2.lookup "source").map
            (fun s => (⟨"module", nc.1, s⟩ : ModuleDep)))
    ∧ extractModuleDependencies ⟨some (ModuleVal.mlist ms), ks⟩
        = (ms.map (fun one => one.filterMap
            (fun nc => (nc.2.lookup "source").map
              (fun s => (⟨"module", nc.1, s⟩ : ModuleDep))))).flatten
    ∧ extractModuleDependencies ⟨none, ks⟩ = [] := by
  refine ⟨depsOfPairs_eq m, ?_, rfl⟩
  show (ms.map depsOfPairs).flatten = _
  congr 1
  exact List.map_congr_left (fun one _ => depsOfPairs_eq one)

/-! ### Node lemmas for `build_dependency_graph` -/

theorem find?_append_of_some {α} (p : α → Bool) {es : List α} (ts : List α) {x : α}
    (h : es.find? p = some x) : (es ++ ts).find? p = some x := by
  induction es with
  | nil => simp [List.find?] at h
  | cons e t ih =>
    cases hp : p e with
    | true => simp_all [List.find?_cons]
    | false =>
      rw [List.find?_cons, hp] at h
      simpa [List.find?_cons, hp] using ih h

theorem addFileNode_edges (g : Graph) (n fp : String) :
    (addFileNode g n fp).edges = g.edges := by
  unfold addFileNode
  split <;> rfl

theorem addEdge_nodes (g : Graph) (a b : String) (d : EdgeAttrs) :
    (addEdge g a b d).nodes = (ensureNode (ensureNode g a) b).nodes := by
  unfold addEdge
  dsimp only
  split <;> rfl

theorem lookupNode_ensureNode_present (g : Graph) (m n : String)
    (h : (lookupNode g n).isSome) :
    lookupNode (ensureNode g m) n = lookupNode g n := by
  unfold ensureNode
  split
  · rfl
  · unfold lookupNode at *
    cases hf : g.nodes.find? (fun p => p.1 == n) with
    | none => simp [hf] at h
    | some x => simp [find?_append_of_some _ _ hf, hf]

theorem lookupNode_addEdge_present (g : Graph) (a b n : String) (d : EdgeAttrs)
    (h : (lookupNode g n).isSome) :
    lookupNode (addEdge g a b d) n = lookupNode g n := by
  have h1 : lookupNode (ensureNode g a) n = lookupNode g n :=
    lookupNode_ensureNode_present g a n h
  have h2 : lookupNode (ensureNode (ensureNode g a) b) n = lookupNode (ensureNode g a) n :=
    lookupNode_ensureNode_present _ b n (by rw [h1]; exact h)
  have : lookupNode (addEdge g a b d) n = lookupNode (ensureNode (ensureNode g a) b) n := by
    unfold lookupNode
    rw [addEdge_nodes]
  rw [this, h2, h1]

theorem foldl_lookupNode_present {α} (step : Graph → α → Graph) (n : String)
    (hstep : ∀ g x, (lookupNode g n).isSome → lookupNode (step g x) n = lookupNode g n) :
    ∀ (l : List α) (g : Graph), (lookupNode g n).isSome →
      lookupNode (l.foldl step g) n = lookupNode g n := by
  intro l
  induction l with
  | nil => intro g _; rfl
  | cons x xs ih =>
    intro g h
    have hx := hstep g x h
    rw [List.foldl_cons, ih (step g x) (by rw [hx]; exact h), hx]

theorem processDep_lookupNode_present (fs : FileSystem) (localDir : String) (g : Graph)
    (rel fp : String) (dep : ModuleDep) (n : String) (h : (lookupNode g n).isSome) :
    lookupNode (processDep fs localDir g rel fp dep) n = lookupNode g n := by
  unfold processDep
  dsimp only
  split
  · split
    · split
      · split
        · rfl
        · exact foldl_lookupNode_present _ n
            (fun g' mf h' => lookupNode_addEdge_present g' rel (relpathStr mf localDir) n _ h')
            _ g h
      · rfl
    · rfl
  · rfl

theorem processFile_lookupNode_present (fs : FileSystem) (localDir : String)
    (parse : String → ParsedTf) (g : Graph) (fp n : String)
    (h : (lookupNode g n).isSome) :
    lookupNode (processFile fs localDir parse g fp) n = lookupNode g n := by
  unfold processFile
  split
  · rfl
  · exact foldl_lookupNode_present _ n
      (fun g' d h' => processDep_lookupNode_present fs localDir g' _ fp d n h')
      _ g h

/-! ### Edge-source lemmas for `build_dependency_graph` -/

theorem addEdge_edges_mem (g : Graph) (a b : String) (d : EdgeAttrs)
    (e : String × String × EdgeAttrs) (he : e ∈ (addEdge g a b d).edges) :
    e.1 = a ∨ e ∈ g.edges := by
  rw [addEdge_edges] at he
  split at he
  · obtain ⟨e0, he0, hf⟩ := List.mem_map.mp he
    by_cases hk : edgeKey a b e0 = true
    · rw [if_pos hk] at hf
      left; rw [← hf]
    · rw [if_neg hk] at hf
      right; rw [← hf]; exact he0
  · rcases List.mem_append.mp he with h | h
    · right; exact h
    · left
      simp only [List.mem_singleton] at h
      rw [h]

theorem foldl_edges_mem {α} (rel : String) (step : Graph → α → Graph)
    (hstep : ∀ g x e, e ∈ (step g x).edges → e.1 = rel ∨ e ∈ g.edges) :
    ∀ (l : List α) (g : Graph) (e : String × String × EdgeAttrs),
      e ∈ (l.foldl step g).edges → e.1 = rel ∨ e ∈ g.edges := by
  intro l
  induction l with
  | nil => intro g e he; right; exact he
  | cons x xs ih =>
    intro g e he
    rw [List.foldl_cons] at he
    rcases ih (step g x) e he with h | h
    · left; exact h
    · exact hstep g x e h

theorem processDep_edges_mem (fs : FileSystem) (localDir : String) (g : Graph)
    (rel fp : String) (dep : ModuleDep) (e : String × String × EdgeAttrs)
    (he : e ∈ (processDep fs localDir g rel fp dep).edges) :
    e.1 = rel ∨ e ∈ g.edges := by
  unfold processDep at he
  dsimp only at he
  split at he
  · split at he
    · split at he
      · split at he
        · right; exact he
        · exact foldl_edges_mem rel _
            (fun g' mf e' he' => addEdge_edges_mem g' rel (relpathStr mf localDir) _ e' he')
            _ g e he
      · right; exact he
    · right; exact he
  · right; exact he

theorem processFile_edges_mem (fs : FileSystem) (localDir : String)
    (parse : String → ParsedTf) (g : Graph) (fp : String)
    (e : String × String × EdgeAttrs)
    (he : e ∈ (processFile fs localDir parse g fp).edges) :
    (e.1 = relpathStr fp localDir ∧ parsedIsEmpty (parse fp) = false) ∨ e ∈ g.edges := by
  unfold processFile at he
  split at he
  · right; exact he
  · rename_i hpe
    rcases foldl_edges_mem (relpathStr fp localDir) _
      (fun g' d e' he' => processDep_edges_mem fs localDir g' _ fp d e' he')
      _ g e he with h | h
    · left
      exact ⟨h, Bool.not_eq_true _ ▸ Bool.of_not_eq_true hpe⟩
    · right; exact h

theorem find?_append_of_none {α} (p : α → Bool) {es : List α} (ts : List α)
    (h : es.find? p = none) : (es ++ ts).find? p = ts.find? p := by
  induction es with
  | nil => rfl
  | cons e t ih =>
    cases hp : p e with
    | true => simp [List.find?_cons, hp] at h
    | false =>
      rw [List.find?_cons, hp] at h
      simpa [List.find?_cons, hp] using ih h

theorem hasNode_eq_isSome (g : Graph) (n : String) :
    hasNode g n = (lookupNode g n).isSome := by
  unfold hasNode lookupNode
  induction g.nodes with
  | nil => rfl
  | cons e t ih =>
    cases hp : e.1 == n with
    | true => simp [List.find?_cons, hp]
    | false => simpa [List.find?_cons, hp] using ih

/-- The node list produced by the update branch of `addFileNode`, looked up at
an arbitrary key: the touched key keeps its description and gains
`type`/`path`; other keys are untouched. -/
theorem mapNodesFind (m fp n : String) :
    ∀ es : List (String × NodeAttrs),
      ((es.map (fun p => if p.1 == m
          then (p.1, { p.2 with ntype := some "file", npath := some fp }) else p)).find?
        (fun p => p.1 == n)).map Prod.snd =
      (if n = m then
        ((es.find? (fun p => p.1 == m)).map Prod.snd).map
          (fun a => ({ ntype := some "file", npath := some fp,
                       ndescription := a.ndescription } : NodeAttrs))
      else (es.find? (fun p => p.1 == n)).map Prod.snd) := by
  intro es
  induction es with
  | nil => by_cases h : n = m <;> simp [h]
  | cons e t ih =>
    obtain ⟨k, a⟩ := e
    rw [List.map_cons]
    by_cases h : n = m
    · subst h
      rw [if_pos rfl] at ih ⊢
      by_cases hk : k = n
      · subst hk
        rw [if_pos (beq_self_eq_true k)]
        simp only [List.find?_cons, beq_self_eq_true]
        rfl
      · have hb : (k == n) = false := beq_eq_false_iff_ne.mpr hk
        rw [if_neg (by rw [hb]; exact Bool.false_ne_true)]
        simp only [List.find?_cons, hb]
        exact ih
    · by_cases hk : k = m
      · subst hk
        rw [if_neg h] at ih ⊢
        rw [if_pos (beq_self_eq_true k)]
        have hb : (k == n) = false := beq_eq_false_iff_ne.mpr (fun hc => h hc.symm)
        simp only [List.find?_cons, hb]
        exact ih
      · have hbm : (k == m) = false := beq_eq_false_iff_ne.mpr hk
        rw [if_neg h] at ih ⊢
        rw [if_neg (by rw [hbm]; exact Bool.false_ne_true)]
        by_cases hkn : k = n
        · subst hkn
          simp only [List.find?_cons, beq_self_eq_true]
        · have hbn : (k == n) = false := beq_eq_false_iff_ne.mpr hkn
          simp only [List.find?_cons, hbn]
          exact ih

/-- Full characterization of `addFileNode`: the touched node gets
`type = "file"` and `path = fp` while keeping its description (or gets a fresh
attribute record when absent); every other node is untouched. -/
theorem lookupNode_addFileNode (g : Graph) (m fp n : String) :
    lookupNode (addFileNode g m fp) n =
      (if n = m then
        (match lookupNode g m with
         | some a => some ⟨some "file", some fp, a.ndescription⟩
         | none => some ⟨some "file", some fp, none⟩)
      else lookupNode g n) := by
  unfold addFileNode
  cases hhas : hasNode g m with
  | true =>
    rw [if_pos rfl]
    unfold lookupNode
    dsimp only
    rw [mapNodesFind m fp n g.nodes]
    by_cases h : n = m
    · rw [if_pos h, if_pos h]
      cases hf : g.nodes.find? (fun p => p.1 == m) with
      | none =>
        rw [hasNode_eq_isSome] at hhas
        unfold lookupNode at hhas
        rw [hf] at hhas
        simp at hhas
      | some x => simp
    · rw [if_neg h, if_neg h]
  | false =>
    rw [if_neg (by rw [Bool.false_eq_true]; exact id)]
    have hnone : g.nodes.find? (fun p => p.1 == m) = none := by
      rw [hasNode_eq_isSome] at hhas
      unfold lookupNode at hhas
      cases hf : g.nodes.find? (fun p => p.1 == m) with
      | none => rfl
      | some x => rw [hf] at hhas; simp at hhas
    unfold lookupNode
    dsimp only
    by_cases h : n = m
    · subst h
      rw [find?_append_of_none _ _ hnone, hnone]
      simp [List.find?_cons, beq_self_eq_true]
    · have hb : (m == n) = false := beq_eq_false_iff_ne.mpr (fun hc => h hc.symm)
      rw [if_neg h]
      cases hf : g.nodes.find? (fun p => p.1 == n) with
      | none =>
        rw [find?_append_of_none _ _ hf]
        simp [List.find?_cons, hb, hf]
      | some x => rw [find?_append_of_some _ _ hf]


theorem addFileNode_isSome_mono (g : Graph) (m fp n : String)
    (h : (lookupNode g n).isSome = true) :
    (lookupNode (addFileNode g m fp) n).isSome = true := by
  rw [lookupNode_addFileNode]
  by_cases hn : n = m
  · rw [if_pos hn]
    cases lookupNode g m <;> simp
  · rw [if_neg hn]; exact h

theorem foldl_addFileNode_edges (localDir : String) :
    ∀ (l : List String) (g : Graph),
      (l.foldl (fun h q => addFileNode h (relpathStr q localDir) q) g).edges = g.edges := by
  intro l
  induction l with
  | nil => intro g; rfl
  | cons q qs ih =>
    intro g
    rw [List.foldl_cons, ih, addFileNode_edges]

theorem foldl_addFileNode_other (localDir n : String) :
    ∀ (l : List String) (g : Graph), (∀ q ∈ l, relpathStr q localDir ≠ n) →
      lookupNode (l.foldl (fun h q => addFileNode h (relpathStr q localDir) q) g) n
        = lookupNode g n := by
  intro l
  induction l with
  | nil => intro g _; rfl
  | cons q qs ih =>
    intro g hq
    rw [List.foldl_cons, ih _ (fun q' hq' => hq q' (List.mem_cons_of_mem _ hq')),
      lookupNode_addFileNode,
      if_neg (fun hc => hq q (List.mem_cons_self _ _) hc.symm)]

theorem foldl_addFileNode_isSome_mono (localDir n : String) :
    ∀ (l : List String) (g : Graph), (lookupNode g n).isSome = true →
      (lookupNode (l.foldl (fun h q => addFileNode h (relpathStr q localDir) q) g) n).isSome
        = true := by
  intro l
  induction l with
  | nil => intro g h; exact h
  | cons q qs ih =>
    intro g h
    rw [List.foldl_cons]
    exact ih _ (addFileNode_isSome_mono g _ q n h)

theorem foldl_addFileNode_isSome (localDir : String) :
    ∀ (l : List String) (g : Graph) (fp : String), fp ∈ l →
      (lookupNode (l.foldl (fun h q => addFileNode h (relpathStr q localDir) q) g)
        (relpathStr fp localDir)).isSome = true := by
  intro l
  induction l with
  | nil => intro g fp h; exact absurd h (List.not_mem_nil fp)
  | cons q qs ih =>
    intro g fp hmem
    rw [List.foldl_cons]
    rcases List.mem_cons.mp hmem with h | h
    · subst h
      refine foldl_addFileNode_isSome_mono localDir _ qs _ ?_
      rw [lookupNode_addFileNode, if_pos rfl]
      cases lookupNode g (relpathStr fp localDir) <;> simp
    · exact ih _ fp h

theorem foldl_addFileNode_exact (localDir : String) :
    ∀ (l : List String) (g : Graph),
      (∀ q ∈ l, lookupNode g (relpathStr q localDir) = none) →
      (l.map (fun q => relpathStr q localDir)).Nodup →
      ∀ fp ∈ l,
        lookupNode (l.foldl (fun h q => addFileNode h (relpathStr q localDir) q) g)
          (relpathStr fp localDir) = some ⟨some "file", some fp, none⟩ := by
  intro l
  induction l with
  | nil => intro g _ _ fp h; exact absurd h (List.not_mem_nil fp)
  | cons q qs ih =>
    intro g hnone hnd fp hmem
    rw [List.map_cons, List.nodup_cons] at hnd
    rw [List.foldl_cons]
    rcases List.mem_cons.mp hmem with h | h
    · subst h
      rw [foldl_addFileNode_other localDir _ qs _
          (fun q' hq' hc => hnd.1 (List.mem_map.mpr ⟨q', hq', hc⟩)),
        lookupNode_addFileNode, if_pos rfl,
        hnone fp (List.mem_cons_self _ _)]
    · refine ih _ ?_ hnd.2 fp h
      intro q' hq'
      rw [lookupNode_addFileNode,
        if_neg (fun hc => hnd.1 (List.mem_map.mpr ⟨q', hq', hc⟩))]
      exact hnone q' (List.mem_cons_of_mem _ hq')

theorem foldl_processFile_edges (fs : FileSystem) (localDir : String)
    (parse : String → ParsedTf) :
    ∀ (l : List String) (g : Graph) (e : String × String × EdgeAttrs),
      e ∈ (l.foldl (processFile fs localDir parse) g).edges →
      (∃ fp2 ∈ l, e.1 = relpathStr fp2 localDir ∧ parsedIsEmpty (parse fp2) = false)
      ∨ e ∈ g.edges := by
  intro l
  induction l with
  | nil => intro g e he; right; exact he
  | cons q qs ih =>
    intro g e he
    rw [List.foldl_cons] at he
    rcases ih _ e he with ⟨fp2, hfp2, hrel, hne⟩ | h
    · left; exact ⟨fp2, List.mem_cons_of_mem _ hfp2, hrel, hne⟩
    · rcases processFile_edges_mem fs localDir parse g q e h with ⟨hrel, hne⟩ | h
      · left; exact ⟨q, List.mem_cons_self _ _, hrel, hne⟩
      · right; exact h

/-! ### C10: parse failures -/

/-- C10: `parse_terraform_file` catches every read or parse exception and
returns the empty dict (in the embedding the parse oracle's `none` answer is
mapped to the empty `ParsedTf`, and the function is total, so nothing is
raised); every file whose parse result is empty still gets its node in the
dependency graph and contributes no outgoing edge. -/
theorem parseFailure_node_without_edges (fs : FileSystem) (localDir : String)
    (tfFiles : List String) (rawParse : String → Option ParsedTf) (fp : String)
    (hmem : fp ∈ tfFiles)
    (hempty : ∀ fp2 ∈ tfFiles, relpathStr fp2 localDir = relpathStr fp localDir →
        parsedIsEmpty (parseTerraformFile rawParse fp2) = true) :
    (rawParse fp = none → parseTerraformFile rawParse fp = ⟨none, []⟩)
    ∧ (lookupNode (buildDependencyGraph fs localDir tfFiles (parseTerraformFile rawParse))
        (relpathStr fp localDir)).isSome = true
    ∧ (∀ e ∈ (buildDependencyGraph fs localDir tfFiles (parseTerraformFile rawParse)).edges,
        e.1 ≠ relpathStr fp localDir) := by
  refine ⟨fun h => by simp [parseTerraformFile, h], ?_, ?_⟩
  · unfold buildDependencyGraph
    dsimp only
    have h0 := foldl_addFileNode_isSome localDir tfFiles emptyDepGraph fp hmem
    rw [foldl_lookupNode_present (processFile fs localDir (parseTerraformFile rawParse))
      (relpathStr fp localDir)
      (fun g q h => processFile_lookupNode_present fs localDir _ g q _ h) tfFiles _ h0]
    exact h0
  · intro e he
    unfold buildDependencyGraph at he
    dsimp only at he
    rcases foldl_processFile_edges fs localDir (parseTerraformFile rawParse) tfFiles _ e he
      with ⟨fp2, hfp2, hrel, hne⟩ | h
    · intro hc
      exact absurd (hempty fp2 hfp2 (by rw [← hrel, hc])) (by rw [hne]; exact Bool.false_ne_true)
    · rw [foldl_addFileNode_edges] at h
      exact absurd h (List.not_mem_nil e)

/-- The parse oracle used by the C10 witness: `"/r/main.tf"` parses to a
module block, every other file raises. -/
def rawParseW : String → Option ParsedTf := fun q =>
  if q == "/r/main.tf" then
    some ⟨some (ModuleVal.mdict [("m", [("source", "./mod")])]), []⟩
  else none

/-- C10, witness: in `fsGlob` with files `main.tf` (parses) and `bad.tf`
(parse fails), the failed file still appears as a node. -/
theorem parseFailure_node_without_edges_applied :
    (lookupNode (buildDependencyGraph fsGlob "/r" ["/r/main.tf", "/r/bad.tf"]
        (parseTerraformFile rawParseW)) (relpathStr "/r/bad.tf" "/r")).isSome = true :=
  (parseFailure_node_without_edges fsGlob "/r" ["/r/main.tf", "/r/bad.tf"] rawParseW
      "/r/bad.tf" (by decide) (by decide)).2.1

/-! ### C5: node attributes after `analyze_repository` -/

theorem lookupNode_generate (initOk : Bool) (describe : String → Option String)
    (g : Graph) (n : String) :
    lookupNode (generateFileDescriptions initOk describe g) n
      = (lookupNode g n).map (describeNode initOk describe n) := by
  unfold generateFileDescriptions lookupNode
  dsimp only
  induction g.nodes with
  | nil => rfl
  | cons e t ih =>
    obtain ⟨k, a⟩ := e
    by_cases hk : k = n
    · subst hk
      simp only [List.map_cons, List.find?_cons, beq_self_eq_true]
      rfl
    · have hb : (k == n) = false := beq_eq_false_iff_ne.mpr hk
      simp only [List.map_cons, List.find?_cons, hb]
      exact ih

theorem describeNode_fields (initOk : Bool) (describe : String → Option String)
    (n : String) (a : NodeAttrs) :
    (describeNode initOk describe n a).ntype = a.ntype
    ∧ (describeNode initOk describe n a).npath = a.npath
    ∧ ((describeNode initOk describe n a).ndescription).isSome = true := by
  unfold describeNode
  by_cases ht : truthyDesc a = true
  · rw [if_pos ht]
    refine ⟨rfl, rfl, ?_⟩
    unfold truthyDesc at ht
    cases ha : a.ndescription with
    | none => rw [ha] at ht; simp at ht
    | some d => rfl
  · rw [if_neg ht]
    cases initOk <;> exact ⟨rfl, rfl, rfl⟩

/-- C5, amended: after `analyze_repository`, every node of the graph carries a
description — the stripped model answer (possibly the empty string) on
success, the default `"Terraform configuration file"` on any failure — and
every node added by the file-scan pass (one per found Terraform file, assuming
distinct repository-relative paths) carries `type = "file"` and `path` equal
to the file's full path.  Nodes created only as module-edge targets carry no
`type` or `path` attribute. -/
theorem analyzeRepository_node_attributes (fs : FileSystem) (localDir : String)
    (tfFiles : List String) (rawParse : String → Option ParsedTf) (initOk : Bool)
    (describe : String → Option String) :
    (∀ p ∈ (analyzeRepository fs localDir tfFiles rawParse initOk describe).nodes,
        (p.2.ndescription).isSome = true)
    ∧ ((tfFiles.map (fun q => relpathStr q localDir)).Nodup →
        ∀ fp ∈ tfFiles, ∃ a,
          lookupNode (analyzeRepository fs localDir tfFiles rawParse initOk describe)
              (relpathStr fp localDir) = some a
          ∧ a.ntype = some "file" ∧ a.npath = some fp
          ∧ (a.ndescription).isSome = true) := by
  constructor
  · intro p hp
    unfold analyzeRepository generateFileDescriptions at hp
    dsimp only at hp
    obtain ⟨q, hq, hpe⟩ := List.mem_map.mp hp
    rw [← hpe]
    exact (describeNode_fields initOk describe q.1 q.2).2.2
  · intro hnd fp hmem
    have hbuild : lookupNode
        (buildDependencyGraph fs localDir tfFiles (parseTerraformFile rawParse))
        (relpathStr fp localDir) = some ⟨some "file", some fp, none⟩ := by
      unfold buildDependencyGraph
      dsimp only
      have h0 := foldl_addFileNode_exact localDir tfFiles emptyDepGraph
        (fun q _ => rfl) hnd fp hmem
      rw [foldl_lookupNode_present (processFile fs localDir (parseTerraformFile rawParse)) _
        (fun g q h => processFile_lookupNode_present fs localDir _ g q _ h) tfFiles _
        (by rw [h0]; rfl)]
      exact h0
    refine ⟨describeNode initOk describe (relpathStr fp localDir) ⟨some "file", some fp, none⟩,
      ?_, ?_, ?_, ?_⟩
    · unfold analyzeRepository
      rw [lookupNode_generate, hbuild]
      rfl
    · exact (describeNode_fields initOk describe _ _).1
    · exact (describeNode_fields initOk describe _ _).2.1
    · exact (describeNode_fields initOk describe _ _).2.2

/-- The filesystem of the C5 counterexample: the module directory lives
outside the repository root `"/repo"`. -/
def fsShared : FileSystem :=
  { files := ["/repo/main.tf", "/shared/mod/a.tf"],
    dirs := ["/repo", "/shared", "/shared/mod"] }

/-- The parse oracle of the C5 counterexample: `main.tf` references the
out-of-repository module `"../shared/mod"`. -/
def parseShared : String → Option ParsedTf := fun q =>
  if q == "/repo/main.tf" then
    some ⟨some (ModuleVal.mdict [("m", [("source", "../shared/mod")])]), []⟩
  else none

/-- The description oracle of the C5 counterexample: the model answers only
whitespace for `main.tf` (stripping to the empty string) and a padded word for
everything else. -/
def describeShared : String → Option String := fun n =>
  if n == "main.tf" then some "  " else some " desc "

/-- C5, counterexample: after `analyze_repository`, the node
`"../shared/mod/a.tf"` — created by `add_edge` as a module-edge target because
the module directory lies outside the repository — carries a description but
neither `type` nor `path`, and the node `"main.tf"` carries the empty string
as its description because the model answered only whitespace.  Both refute
the claim that every node has `type = "file"`, a `path`, and a nonempty
description. -/
theorem analyzeRepository_untyped_node :
    lookupNode (analyzeRepository fsShared "/repo" ["/repo/main.tf"] parseShared true
        describeShared) "../shared/mod/a.tf" = some ⟨none, none, some "desc"⟩
    ∧ lookupNode (analyzeRepository fsShared "/repo" ["/repo/main.tf"] parseShared true
        describeShared) "main.tf" = some ⟨some "file", some "/repo/main.tf", some ""⟩ := by
  decide

/-- C5, witness: the amended statement applied to the single scanned file of
`fsShared`. -/
theorem analyzeRepository_node_attributes_applied :
    ∃ a, lookupNode (analyzeRepository fsShared "/repo" ["/repo/main.tf"] parseShared true
        describeShared) (relpathStr "/repo/main.tf" "/repo") = some a
      ∧ a.ntype = some "file" ∧ a.npath = some "/repo/main.tf"
      ∧ (a.ndescription).isSome = true :=
  (analyzeRepository_node_attributes fsShared "/repo" ["/repo/main.tf"] parseShared true
      describeShared).2 (by decide) "/repo/main.tf" (by decide)

/-! ### `_clean_github_url` -/

/-- The characters of the `tree` segment tag. -/
def treeTagL : List Char := ['t', 'r', 'e', 'e']

/-- The characters of the `blob` segment tag. -/
def blobTagL : List Char := ['b', 'l', 'o', 'b']

/-- `re.sub(r'/TAG/[^/]+/?$', '', u)`: the end-anchored pattern matches at
most once — when, after at most one trailing slash, the final path segment is
nonempty and preceded by `"/TAG/"` — and the substitution removes that
suffix. -/
def segEndStrip (tag : List Char) (u : List Char) : List Char :=
  let v := if u.getLast? == some '/' then u.take (u.length - 1) else u
  let seg := afterLastSlash v
  let pre := v.take (v.length - seg.length)
  if seg.isEmpty || pre.isEmpty then u
  else if endsL ('/' :: tag ++ ['/']) pre then
    v.take (v.length - seg.length - (tag.length + 2))
  else u

/-- The scan of `re.sub(r'/TAG/[^/]+/', '/', u)`, structurally recursive on a
fuel argument (one unit per consumed character, so `u.length` units always
suffice): each non-overlapping occurrence of `"/TAG/<segment>/"` is replaced
by `"/"` and scanning resumes after the consumed match, exactly as `re.sub`
does. -/
def segMidSubF (tag : List Char) : Nat → List Char → List Char
  | 0, cs => cs
  | _ + 1, [] => []
  | fuel + 1, c :: cs =>
    if startsL ('/' :: tag ++ ['/']) (c :: cs) then
      let rest := cs.drop (tag.length + 1)
      let seg := rest.takeWhile (fun d => !(d == '/'))
      if seg.isEmpty || (rest.drop seg.length).isEmpty then c :: segMidSubF tag fuel cs
      else '/' :: segMidSubF tag fuel (rest.drop (seg.length + 1))
    else c :: segMidSubF tag fuel cs

/-- `re.sub(r'/TAG/[^/]+/', '/', u)`. -/
def segMidSub (tag u : List Char) : List Char := segMidSubF tag u.length u

/-- The last two steps of `_clean_github_url`: drop a trailing `".git"` when
the URL mentions `github.com`, then strip all trailing slashes. -/
def gitStripSlash (u4 : List Char) : List Char :=
  let u5 := if hasSubL "github.com".data u4 && endsL ['.', 'g', 'i', 't'] u4 then
              u4.take (u4.length - 4)
            else u4
  dropEndSlashes u5

/-- `TerraformRepoAnalyzer._clean_github_url`: strip a trailing
`/tree/<seg>`, substitute mid-path `/tree/<seg>/` occurrences, same for
`blob`, drop a trailing `".git"` for github.com URLs, and strip trailing
slashes. -/
def cleanGithubUrl (url : String) : String :=
  ⟨gitStripSlash (segMidSub blobTagL (segEndStrip blobTagL
    (segMidSub treeTagL (segEndStrip treeTagL url.data))))⟩

/-! ### Substring machinery for C6 -/

theorem startsL_iff (p l : List Char) : startsL p l = true ↔ p <+: l := by
  induction p generalizing l with
  | nil => simp [startsL]
  | cons a ps ih =>
    cases l with
    | nil => simp [startsL]
    | cons c cs => simp [startsL, List.cons_prefix_cons, ih, And.comm]

theorem hasSubL_iff (p l : List Char) : hasSubL p l = true ↔ p <:+: l := by
  induction l with
  | nil => simp [hasSubL, List.isEmpty_iff]
  | cons c cs ih => simp [hasSubL, List.infix_cons_iff, startsL_iff, ih]

theorem endsL_iff (p l : List Char) : endsL p l = true ↔ p <:+ l := by
  unfold endsL
  rw [startsL_iff, List.reverse_prefix]

theorem hasSubL_false_of_prefix {pat l1 l2 : List Char} (hp : l1 <+: l2)
    (h : hasSubL pat l2 = false) : hasSubL pat l1 = false := by
  cases hst : hasSubL pat l1 with
  | false => rfl
  | true =>
    have : pat <:+: l2 := (hasSubL_iff pat l1 |>.mp hst).trans hp.isInfix
    rw [(hasSubL_iff pat l2).mpr this] at h
    exact h

theorem dropEndSlashes_pfx (l : List Char) : dropEndSlashes l <+: l := by
  unfold dropEndSlashes
  have h1 : l.reverse.dropWhile (fun c => c == '/') <:+ l.reverse :=
    List.dropWhile_suffix _
  have h2 : (l.reverse.dropWhile (fun c => c == '/')).reverse.reverse <:+ l.reverse := by
    rw [List.reverse_reverse]; exact h1
  exact (List.reverse_suffix).mp h2

theorem segEndStrip_pfx (tag u : List Char) : segEndStrip tag u <+: u := by
  unfold segEndStrip
  dsimp only
  split
  · split
    · exact List.prefix_rfl
    · split
      · exact (List.take_prefix _ _).trans (List.take_prefix _ _)
      · exact List.prefix_rfl
  · split
    · exact List.prefix_rfl
    · split
      · exact List.take_prefix _ _
      · exact List.prefix_rfl

theorem segEndStrip_hasSub_false {pat : List Char} (tag u : List Char)
    (h : hasSubL pat u = false) : hasSubL pat (segEndStrip tag u) = false :=
  hasSubL_false_of_prefix (segEndStrip_pfx tag u) h

theorem segMidSubF_id (tag : List Char) :
    ∀ (fuel : Nat) (u : List Char), hasSubL ('/' :: tag ++ ['/']) u = false →
      segMidSubF tag fuel u = u := by
  intro fuel
  induction fuel with
  | zero => intro u _; rfl
  | succ f ih =>
    intro u h
    cases u with
    | nil => rfl
    | cons c cs =>
      unfold hasSubL at h
      rw [Bool.or_eq_false_iff] at h
      rw [segMidSubF, if_neg (by rw [h.1]; exact Bool.false_ne_true), ih cs h.2]

theorem segMidSub_id (tag : List Char) (u : List Char)
    (h : hasSubL ('/' :: tag ++ ['/']) u = false) : segMidSub tag u = u :=
  segMidSubF_id tag u.length u h

theorem startsL_slash_dropWhile (y : List Char) :
    startsL ['/'] (y.dropWhile (fun c => c == '/')) = false := by
  induction y with
  | nil => rfl
  | cons c cs ih =>
    cases hc : c == '/' with
    | true => simpa [List.dropWhile_cons, hc] using ih
    | false =>
      rw [List.dropWhile_cons, if_neg (by rw [hc]; exact Bool.false_ne_true)]
      have hsym : ('/' == c) = false :=
        beq_eq_false_iff_ne.mpr (fun h => (beq_eq_false_iff_ne.mp hc) h.symm)
      simp [startsL, hsym]

set_option maxHeartbeats 2000000 in
/-- C6, counterexample: on the URL
`"https://github.com/a/tree/x/tree/y/b.git/"` the single left-to-right
substitution pass removes only `"/tree/x/"`, leaving the segment `"/tree/y"`
in the result; and because the trailing-slash strip runs after the `".git"`
check, the github.com result also keeps its `".git"` suffix.  Both parts of
the claim are false on this input. -/
theorem cleanGithubUrl_residual_segment :
    cleanGithubUrl "https://github.com/a/tree/x/tree/y/b.git/"
        = "https://github.com/a/tree/y/b.git"
    ∧ hasSubL ('/' :: treeTagL ++ ['/'])
        (cleanGithubUrl "https://github.com/a/tree/x/tree/y/b.git/").data = true
    ∧ hasSubL "github.com".data
        (cleanGithubUrl "https://github.com/a/tree/x/tree/y/b.git/").data = true
    ∧ endsL ['.', 'g', 'i', 't']
        (cleanGithubUrl "https://github.com/a/tree/x/tree/y/b.git/").data = true := by
  refine ⟨by decide, by decide, by decide, by decide⟩

/-- C6, amended: `_clean_github_url` never returns a URL with a trailing
slash, and when the input contains no `"/tree/"` and no `"/blob/"` substring
the result contains neither (the substitutions fire only on such substrings,
and the `".git"` / trailing-slash strips only shorten the string).  When such
segments do occur, one left-to-right pass removes non-overlapping occurrences
but may leave a segment that abuts a removed one, and a github.com URL whose
`".git"` is followed by a trailing slash keeps the `".git"`. -/
theorem gitStripSlash_no_slash (v : List Char) :
    endsL ['/'] (gitStripSlash v) = false := by
  unfold gitStripSlash endsL dropEndSlashes
  rw [List.reverse_reverse]
  exact startsL_slash_dropWhile _

theorem gitStripSlash_pfx (v : List Char) : gitStripSlash v <+: v := by
  unfold gitStripSlash
  dsimp only
  refine (dropEndSlashes_pfx _).trans ?_
  split
  · exact List.take_prefix _ _
  · exact List.prefix_rfl

theorem cleanGithubUrl_segments (u : String) :
    endsL ['/'] (cleanGithubUrl u).data = false
    ∧ (hasSubL ('/' :: treeTagL ++ ['/']) u.data = false →
       hasSubL ('/' :: blobTagL ++ ['/']) u.data = false →
         hasSubL ('/' :: treeTagL ++ ['/']) (cleanGithubUrl u).data = false
         ∧ hasSubL ('/' :: blobTagL ++ ['/']) (cleanGithubUrl u).data = false) := by
  have hmk : cleanGithubUrl u = ⟨gitStripSlash (segMidSub blobTagL
      (segEndStrip blobTagL (segMidSub treeTagL (segEndStrip treeTagL u.data))))⟩ := rfl
  have hdata : (cleanGithubUrl u).data = gitStripSlash (segMidSub blobTagL
      (segEndStrip blobTagL (segMidSub treeTagL (segEndStrip treeTagL u.data)))) := by
    rw [hmk]
  constructor
  · rw [hdata]
    exact gitStripSlash_no_slash _
  · intro ht hb
    have h1t := segEndStrip_hasSub_false treeTagL u.data ht
    have h1b := segEndStrip_hasSub_false treeTagL u.data hb
    have e2 : segMidSub treeTagL (segEndStrip treeTagL u.data)
        = segEndStrip treeTagL u.data := segMidSub_id _ _ h1t
    have h3t := segEndStrip_hasSub_false blobTagL _ h1t
    have h3b := segEndStrip_hasSub_false blobTagL _ h1b
    have e4 : segMidSub blobTagL (segEndStrip blobTagL (segEndStrip treeTagL u.data))
        = segEndStrip blobTagL (segEndStrip treeTagL u.data) := segMidSub_id _ _ h3b
    have hfin : ∀ pat : List Char,
        hasSubL pat (segEndStrip blobTagL (segEndStrip treeTagL u.data)) = false →
        hasSubL pat (cleanGithubUrl u).data = false := by
      intro pat hp
      rw [hdata, e2, e4]
      exact hasSubL_false_of_prefix (gitStripSlash_pfx _) hp
    exact ⟨hfin _ h3t, hfin _ h3b⟩

/-- C6, witness: the amended statement applied to a URL with no web-UI
segments. -/
theorem cleanGithubUrl_segments_applied :
    hasSubL ('/' :: treeTagL ++ ['/'])
        (cleanGithubUrl "https://github.com/o/r.git").data = false
    ∧ hasSubL ('/' :: blobTagL ++ ['/'])
        (cleanGithubUrl "https://github.com/o/r.git").data = false :=
  (cleanGithubUrl_segments "https://github.com/o/r.git").2 (by decide) (by decide)

/-! ### C7: `identify_relevant_files` path validation -/

/-- Python's `str.lstrip('/')`. -/
def stripLeadSlashes (s : String) : String := ⟨s.data.dropWhile (fun c => c == '/')⟩

/-- Whether the directory `d` has, directly inside it, a regular file named
`base` — the `os.walk` membership test `basename in files`. -/
def dirFilesHaveBase (fs : FileSystem) (d base : String) : Bool :=
  fs.files.any (fun f => dirnameL f.data == d.data && afterLastSlash f.data == base.data)

/-- The directories visited by `os.walk(local_dir)`: the repository root and
every directory below it (in the model's storage order; the walk order does
not matter to the claims). -/
def walkDirs (fs : FileSystem) (localDir : String) : List String :=
  fs.dirs.filter (fun d =>
    d == normpath localDir || startsL ((normpath localDir).data ++ ['/']) d.data)

/-- The first walked directory that directly contains a file named `base`,
modelling the repository walk with `break` on the first hit. -/
def walkFindBase (fs : FileSystem) (localDir base : String) : Option String :=
  (walkDirs fs localDir).find? (fun d => dirFilesHaveBase fs d base)

/-- The validation loop of `identify_relevant_files`: each model-returned
path is stripped of leading slashes and kept if the joined path exists
(`os.path.exists`, so directories qualify too); otherwise the repository is
walked for a file with the same basename, whose repository-relative path is
used; paths with no match are dropped. -/
def validateFilePaths (fs : FileSystem) (localDir : String) : List String → List String
  | [] => []
  | p :: rest =>
    let p2 := stripLeadSlashes p
    if fs.existsPath (joinPath localDir p2) then
      p2 :: validateFilePaths fs localDir rest
    else
      match walkFindBase fs localDir (basenameStr p2) with
      | some root =>
        relpathStr (joinPath root (basenameStr p2)) localDir :: validateFilePaths fs localDir rest
      | none => validateFilePaths fs localDir rest

/-- A filesystem with a file outside the repository reachable with `..`, and
a subdirectory inside the repository. -/
def fsEscape : FileSystem :=
  { files := ["/etc/secret", "/repo/main.tf"], dirs := ["/repo", "/repo/sub", "/etc"] }

/-- C7, counterexample: the model-returned path `"../etc/secret"` is kept —
`os.path.exists("/repo/../etc/secret")` is true — although it names a file
outside the repository directory; and `"sub"` is kept although it names a
directory, not a file.  Both refute the claim that every returned path refers
to an existing file under the repository directory. -/
theorem validateFilePaths_escape :
    validateFilePaths fsEscape "/repo" ["../etc/secret", "sub"] = ["../etc/secret", "sub"]
    ∧ normpath (joinPath "/repo" "../etc/secret") = "/etc/secret"
    ∧ startsL "/repo/".data "/etc/secret".data = false
    ∧ fsEscape.files.contains (normpath (joinPath "/repo" "sub")) = false := by
  refine ⟨by decide, by decide, by decide, by decide⟩

theorem dropWhile_idem {α} (p : α → Bool) (l : List α) :
    (l.dropWhile p).dropWhile p = l.dropWhile p := by
  induction l with
  | nil => rfl
  | cons c cs ih =>
    cases hc : p c with
    | true => simpa [List.dropWhile_cons, hc] using ih
    | false => simp [List.dropWhile_cons, hc]

/-- C7, amended: when the model call succeeds, every path in the returned
list either (a) is a model-returned path, stripped of leading slashes, whose
join with the repository directory exists on disk — this admits directories,
and `..` segments may take it outside the repository — or (b) is the
repository-relative path of an existing regular file, found under a walked
directory of the repository, with the same basename as the model-returned
path; model paths with no such match are excluded.  (`hcanon` states the
model convention that stored file paths are canonical.) -/
theorem validateFilePaths_membership (fs : FileSystem) (localDir : String)
    (paths : List String)
    (hcanon : ∀ f ∈ fs.files, f = joinPath (dirnameStr f) (basenameStr f)) :
    ∀ p ∈ validateFilePaths fs localDir paths,
      fs.existsPath (joinPath localDir (stripLeadSlashes p)) = true
      ∨ ∃ f, f ∈ fs.files
          ∧ (dirnameStr f = normpath localDir
             ∨ startsL ((normpath localDir).data ++ ['/']) (dirnameStr f).data = true)
          ∧ p = relpathStr f localDir := by
  induction paths with
  | nil => intro p hp; exact absurd hp (List.not_mem_nil p)
  | cons q rest ih =>
    intro p hp
    unfold validateFilePaths at hp
    dsimp only at hp
    by_cases hex : fs.existsPath (joinPath localDir (stripLeadSlashes q)) = true
    · rw [if_pos hex] at hp
      rcases List.mem_cons.mp hp with h | h
      · subst h
        left
        have hidem : stripLeadSlashes (stripLeadSlashes q) = stripLeadSlashes q := by
          unfold stripLeadSlashes
          rw [dropWhile_idem]
        rw [hidem]
        exact hex
      · exact ih p h
    · rw [if_neg hex] at hp
      cases hw : walkFindBase fs localDir (basenameStr (stripLeadSlashes q)) with
      | none =>
        rw [hw] at hp
        exact ih p hp
      | some root =>
        rw [hw] at hp
        rcases List.mem_cons.mp hp with h | h
        · right
          have hmem := List.mem_of_find?_eq_some hw
          have hpd := List.find?_some hw
          unfold walkDirs at hmem
          rw [List.mem_filter] at hmem
          unfold dirFilesHaveBase at hpd
          obtain ⟨f, hf, hfd⟩ := List.any_eq_true.mp hpd
          rw [Bool.and_eq_true, beq_iff_eq, beq_iff_eq] at hfd
          have hdf : dirnameStr f = root := by
            unfold dirnameStr
            rw [hfd.1]
          have hbf : basenameStr f = basenameStr (stripLeadSlashes q) := by
            unfold basenameStr
            rw [hfd.2]
            rfl
          refine ⟨f, hf, ?_, ?_⟩
          · rcases Bool.or_eq_true _ _ ▸ hmem.2 with hd | hd
            · left
              rw [hdf]
              exact beq_iff_eq.mp hd
            · right
              rw [hdf]
              exact hd
          · have hfj : f = joinPath root (basenameStr (stripLeadSlashes q)) := by
              conv =>
                lhs
                rw [hcanon f hf]
              rw [hdf, hbf]
            rw [h, ← hfj]
        · exact ih p h

/-- C7, witness: the amended statement applied to `fsEscape` and a
model-returned basename resolved through the walk. -/
theorem validateFilePaths_membership_applied :
    fsEscape.existsPath (joinPath "/repo" (stripLeadSlashes "../etc/secret")) = true
    ∨ ∃ f, f ∈ fsEscape.files
        ∧ (dirnameStr f = normpath "/repo"
           ∨ startsL ((normpath "/repo").data ++ ['/']) (dirnameStr f).data = true)
        ∧ "../etc/secret" = relpathStr f "/repo" :=
  validateFilePaths_membership fsEscape "/repo" ["../etc/secret", "sub"] (by decide)
    "../etc/secret" (by decide)

/-! ### C8: code-block extraction in `modify_files` -/

/-- The three-backtick fence. -/
def tripleBt : List Char := [backtickChar, backtickChar, backtickChar]

/-- Split a character list at the first occurrence of the fence: returns the
characters before it and the characters after it, or `none` when there is no
occurrence. -/
def splitFirstTriple : List Char → Option (List Char × List Char)
  | [] => none
  | c :: cs =>
    if startsL tripleBt (c :: cs) then some ([], cs.drop 2)
    else
      match splitFirstTriple cs with
      | none => none
      | some (a, r) => some (c :: a, r)

/-- Whether the list contains a three-backtick fence. -/
def hasTriple (cs : List Char) : Bool := (splitFirstTriple cs).isSome

/-- The optional `(?:terraform|hcl)?` tag after the opening fence, tried in
the regex's alternation order. -/
def dropTag (cs : List Char) : List Char :=
  if startsL "terraform".data cs then cs.drop 9
  else if startsL "hcl".data cs then cs.drop 3
  else cs

/-- The semantics of
`re.search(r'```(?:terraform|hcl)?\s*([\s\S]*?)\s*```', text).group(1)`:
the leftmost match opens at the first fence that has a later closing fence;
the optional tag is consumed when it is a literal prefix; the greedy leading
`\s*` and the lazy group make the group the region up to the first subsequent
fence, with surrounding whitespace stripped.  `none` models a failed
search. -/
def pyFence (cs : List Char) : Option (List Char) :=
  match splitFirstTriple cs with
  | none => none
  | some (_, rest) =>
    match splitFirstTriple (dropTag rest) with
    | none => none
    | some (content, _) => some (pyStripL content)

/-- The stored content in `modify_files`: the extracted group when the regex
matches, the whole response otherwise. -/
def extractStoredContent (response : String) : String :=
  match pyFence response.data with
  | some g => ⟨g⟩
  | none => response

/-- `modify_files` maps each file path to the stored content extracted from
the model's response for that file. -/
def modifyFiles (genResponse : String → String) (filePaths : List String) :
    List (String × String) :=
  filePaths.map (fun fp => (fp, extractStoredContent (genResponse fp)))

theorem startsL_append_self (p t : List Char) : startsL p (p ++ t) = true := by
  induction p with
  | nil => rfl
  | cons c cs ih => simp [startsL, ih]

theorem startsL_of_pfx {p l1 l2 : List Char} (h : startsL p l1 = true)
    (hp : l1 <+: l2) : startsL p l2 = true := by
  rw [startsL_iff] at h ⊢
  exact h.trans hp

theorem splitFirstTriple_eq :
    ∀ (cs a r : List Char), splitFirstTriple cs = some (a, r) → cs = a ++ tripleBt ++ r := by
  intro cs
  induction cs with
  | nil => intro a r h; simp [splitFirstTriple] at h
  | cons c cs ih =>
    intro a r h
    rw [splitFirstTriple] at h
    by_cases hs : startsL tripleBt (c :: cs) = true
    · rw [if_pos hs] at h
      obtain ⟨t, ht⟩ := (startsL_iff tripleBt (c :: cs)).mp hs
      have hc : c :: cs
          = backtickChar :: backtickChar :: backtickChar :: t := by rw [← ht]; rfl
      injection hc with h1 h2
      injection h with h3
      injection h3 with h4 h5
      subst h1
      subst h2
      rw [← h4, ← h5]
      rfl
    · rw [if_neg hs] at h
      cases hsp : splitFirstTriple cs with
      | none => rw [hsp] at h; exact absurd h (by simp)
      | some pr =>
        obtain ⟨a', r'⟩ := pr
        rw [hsp] at h
        injection h with h3
        injection h3 with h4 h5
        rw [← h4, ← h5, ih a' r' hsp]
        rfl

theorem splitFirstTriple_append :
    ∀ (a b : List Char), (splitFirstTriple (a ++ tripleBt ++ b)).isSome = true := by
  intro a
  induction a with
  | nil =>
    intro b
    show (splitFirstTriple
      (backtickChar :: backtickChar :: backtickChar :: b)).isSome = true
    rw [splitFirstTriple]
    rw [if_pos (by simp [startsL, tripleBt])]
    rfl
  | cons x a ih =>
    intro b
    show (splitFirstTriple (x :: (a ++ tripleBt ++ b))).isSome = true
    rw [splitFirstTriple]
    by_cases hs : startsL tripleBt (x :: (a ++ tripleBt ++ b)) = true
    · rw [if_pos hs]; rfl
    · rw [if_neg hs]
      cases hsp : splitFirstTriple (a ++ tripleBt ++ b) with
      | none =>
        have hb := ih b
        rw [hsp] at hb
        exact absurd hb (by simp)
      | some pr => rfl

theorem startsTriple_extend (c : Char) (a' r : List Char)
    (h : startsL tripleBt (c :: a' ++ [backtickChar, backtickChar]) = true) :
    startsL tripleBt (c :: a' ++ tripleBt ++ r) = true := by
  match a' with
  | [] =>
    simp [startsL, tripleBt] at h ⊢
    exact h
  | [x] =>
    simp [startsL, tripleBt] at h ⊢
    exact h
  | x :: y :: zs =>
    simp [startsL, tripleBt] at h ⊢
    exact h

theorem splitFirstTriple_first :
    ∀ (cs a r : List Char), splitFirstTriple cs = some (a, r) →
      hasTriple (a ++ [backtickChar, backtickChar]) = false := by
  intro cs
  induction cs with
  | nil => intro a r h; simp [splitFirstTriple] at h
  | cons c cs ih =>
    intro a r h
    rw [splitFirstTriple] at h
    by_cases hs : startsL tripleBt (c :: cs) = true
    · rw [if_pos hs] at h
      injection h with h3
      injection h3 with h4 h5
      rw [← h4]
      decide
    · rw [if_neg hs] at h
      cases hsp : splitFirstTriple cs with
      | none => rw [hsp] at h; exact absurd h (by simp)
      | some pr =>
        obtain ⟨a', r'⟩ := pr
        rw [hsp] at h
        injection h with h3
        injection h3 with h4 h5
        have hcseq : cs = a' ++ tripleBt ++ r' := splitFirstTriple_eq cs a' r' hsp
        have hns : startsL tripleBt (c :: (a' ++ [backtickChar, backtickChar])) = false := by
          cases hq : startsL tripleBt (c :: (a' ++ [backtickChar, backtickChar])) with
          | false => rfl
          | true =>
            exfalso
            have hq' : startsL tripleBt (c :: a' ++ [backtickChar, backtickChar]) = true := by
              simpa [List.cons_append] using hq
            have hext := startsTriple_extend c a' r' hq'
            have hcs : startsL tripleBt (c :: cs) = true := by
              rw [hcseq]
              simpa [List.cons_append, List.append_assoc] using hext
            exact hs hcs
        have hminor : a ++ [backtickChar, backtickChar]
            = c :: (a' ++ [backtickChar, backtickChar]) := by
          rw [← h4]
          simp
        unfold hasTriple
        rw [hminor, splitFirstTriple,
          if_neg (by rw [hns]; exact Bool.false_ne_true)]
        have hih := ih a' r' hsp
        unfold hasTriple at hih
        cases hsp2 : splitFirstTriple (a' ++ [backtickChar, backtickChar]) with
        | none => rfl
        | some z =>
          rw [hsp2] at hih
          exact absurd hih (by simp)

theorem splitFirstTriple_cons_none (c : Char) (hc : (c == backtickChar) = false)
    (z : List Char) (h : splitFirstTriple z = none) :
    splitFirstTriple (c :: z) = none := by
  rw [splitFirstTriple]
  have hcond : startsL tripleBt (c :: z) = false := by
    have hb : (backtickChar == c) = false := by
      cases hq : backtickChar == c with
      | false => rfl
      | true =>
        have heq : backtickChar = c := beq_iff_eq.mp hq
        have hcb : (c == backtickChar) = true := by
          rw [← heq]
          exact beq_self_eq_true _
        rw [hc] at hcb
        exact absurd hcb (by simp)
    simp [startsL, tripleBt, hb]
  rw [if_neg (by rw [hcond]; exact Bool.false_ne_true), h]

theorem append_letters_none :
    ∀ (tag : List Char), (∀ c ∈ tag, (c == backtickChar) = false) →
      ∀ z : List Char, splitFirstTriple z = none → splitFirstTriple (tag ++ z) = none := by
  intro tag
  induction tag with
  | nil => intro _ z h; exact h
  | cons c cs ih =>
    intro hall z h
    exact splitFirstTriple_cons_none c (hall c (List.mem_cons_self _ _)) _
      (ih (fun d hd => hall d (List.mem_cons_of_mem _ hd)) z h)

theorem dropTag_none (rest : List Char) (h : splitFirstTriple (dropTag rest) = none) :
    splitFirstTriple rest = none := by
  unfold dropTag at h
  by_cases h9 : startsL "terraform".data rest = true
  · rw [if_pos h9] at h
    obtain ⟨t, ht⟩ := (startsL_iff _ _).mp h9
    have hdrop : rest.drop 9 = t := by
      rw [← ht]
      exact List.drop_left "terraform".data t
    rw [hdrop] at h
    rw [← ht]
    exact append_letters_none "terraform".data (by decide) t h
  · rw [if_neg h9] at h
    by_cases h3 : startsL "hcl".data rest = true
    · rw [if_pos h3] at h
      obtain ⟨t, ht⟩ := (startsL_iff _ _).mp h3
      have hdrop : rest.drop 3 = t := by
        rw [← ht]
        exact List.drop_left "hcl".data t
      rw [hdrop] at h
      rw [← ht]
      exact append_letters_none "hcl".data (by decide) t h
    · rw [if_neg h3] at h
      exact h

theorem drop2_keeps_pair (a b c : List Char) :
    ∃ u v, (a ++ tripleBt ++ b ++ tripleBt ++ c).drop 2 = u ++ tripleBt ++ v := by
  match a with
  | [] => exact ⟨backtickChar :: b, c, by simp [tripleBt]⟩
  | [x1] => exact ⟨backtickChar :: backtickChar :: b, c, by simp [tripleBt]⟩
  | x1 :: x2 :: a' => exact ⟨a', b ++ tripleBt ++ c, by simp [List.append_assoc]⟩

theorem splitFirstTriple_pair :
    ∀ (a b c : List Char), ∃ a0 r0 u v,
      splitFirstTriple (a ++ tripleBt ++ b ++ tripleBt ++ c) = some (a0, r0)
      ∧ r0 = u ++ tripleBt ++ v := by
  intro a
  induction a with
  | nil =>
    intro b c
    refine ⟨[], b ++ tripleBt ++ c, b, c, ?_, rfl⟩
    show splitFirstTriple
      (backtickChar :: backtickChar :: backtickChar :: (b ++ tripleBt ++ c)) = _
    rw [splitFirstTriple, if_pos (by simp [startsL, tripleBt])]
    rfl
  | cons x a ih =>
    intro b c
    obtain ⟨a0, r0, u, v, hsp, hr0⟩ := ih b c
    have hcons : (x :: a) ++ tripleBt ++ b ++ tripleBt ++ c
        = x :: (a ++ tripleBt ++ b ++ tripleBt ++ c) := by simp [List.append_assoc]
    rw [hcons]
    by_cases hs : startsL tripleBt (x :: (a ++ tripleBt ++ b ++ tripleBt ++ c)) = true
    · obtain ⟨u', v', hu'⟩ := drop2_keeps_pair a b c
      refine ⟨[], (a ++ tripleBt ++ b ++ tripleBt ++ c).drop 2, u', v', ?_, hu'⟩
      rw [splitFirstTriple, if_pos hs]
    · refine ⟨x :: a0, r0, u, v, ?_, hr0⟩
      rw [splitFirstTriple, if_neg hs, hsp]

theorem pyFence_some_decomp (cs : List Char) (g : List Char) (h : pyFence cs = some g) :
    ∃ x y z, cs = x ++ tripleBt ++ y ++ tripleBt ++ z := by
  unfold pyFence at h
  cases h1 : splitFirstTriple cs with
  | none => rw [h1] at h; exact absurd h (by simp)
  | some pr =>
    obtain ⟨a0, r0⟩ := pr
    rw [h1] at h
    dsimp only at h
    cases h2 : splitFirstTriple (dropTag r0) with
    | none => rw [h2] at h; exact absurd h (by simp)
    | some pr2 =>
      obtain ⟨content, post⟩ := pr2
      have hcs := splitFirstTriple_eq cs a0 r0 h1
      have hd2 := splitFirstTriple_eq _ content post h2
      have hπ : ∃ π : List Char, r0 = π ++ dropTag r0 := by
        unfold dropTag
        split
        · exact ⟨r0.take 9, (List.take_append_drop 9 r0).symm⟩
        · split
          · exact ⟨r0.take 3, (List.take_append_drop 3 r0).symm⟩
          · exact ⟨[], rfl⟩
      obtain ⟨π, hr0π⟩ := hπ
      refine ⟨a0, π ++ content, post, ?_⟩
      rw [hcs, hr0π, hd2]
      simp [List.append_assoc]

theorem pyFence_spec (cs x y z : List Char)
    (hdec : cs = x ++ tripleBt ++ y ++ tripleBt ++ z) :
    ∃ x' y' z', cs = x' ++ tripleBt ++ y' ++ tripleBt ++ z'
      ∧ hasTriple (x' ++ [backtickChar, backtickChar]) = false
      ∧ hasTriple (dropTag y' ++ [backtickChar, backtickChar]) = false
      ∧ pyFence cs = some (pyStripL (dropTag y')) := by
  subst hdec
  obtain ⟨a0, r0, u, v, hsp, hr0⟩ := splitFirstTriple_pair x y z
  have hr0some : (splitFirstTriple r0).isSome = true := by
    rw [hr0]
    exact splitFirstTriple_append u v
  have hdtsome : (splitFirstTriple (dropTag r0)).isSome = true := by
    cases hq : splitFirstTriple (dropTag r0) with
    | some w => rfl
    | none =>
      rw [dropTag_none r0 hq] at hr0some
      exact absurd hr0some (by simp)
  obtain ⟨⟨content, post⟩, hsecond⟩ := Option.isSome_iff_exists.mp hdtsome
  have hcs1 := splitFirstTriple_eq _ a0 r0 hsp
  have hfirst1 := splitFirstTriple_first _ a0 r0 hsp
  have hdec2 := splitFirstTriple_eq _ content post hsecond
  have hfirst2 := splitFirstTriple_first _ content post hsecond
  have hpy : pyFence (x ++ tripleBt ++ y ++ tripleBt ++ z) = some (pyStripL content) := by
    unfold pyFence
    rw [hsp]
    dsimp only
    rw [hsecond]
  by_cases h9 : startsL "terraform".data r0 = true
  · have hr0eq : r0 = "terraform".data ++ dropTag r0 := by
      obtain ⟨t, ht⟩ := (startsL_iff _ _).mp h9
      have hdt : dropTag r0 = t := by
        unfold dropTag
        rw [if_pos h9, ← ht]
        exact List.drop_left "terraform".data t
      rw [hdt, ht]
    have hy' : dropTag ("terraform".data ++ content) = content := by
      unfold dropTag
      rw [if_pos (startsL_append_self _ _)]
      exact List.drop_left "terraform".data content
    refine ⟨a0, "terraform".data ++ content, post, ?_, hfirst1, ?_, ?_⟩
    · rw [hcs1, hr0eq, hdec2]
      simp [List.append_assoc]
    · rw [hy']
      exact hfirst2
    · rw [hpy, hy']
  · by_cases h3 : startsL "hcl".data r0 = true
    · have hr0eq : r0 = "hcl".data ++ dropTag r0 := by
        obtain ⟨t, ht⟩ := (startsL_iff _ _).mp h3
        have hdt : dropTag r0 = t := by
          unfold dropTag
          rw [if_neg h9, if_pos h3, ← ht]
          exact List.drop_left "hcl".data t
        rw [hdt, ht]
      have hnt : startsL "terraform".data ("hcl".data ++ content) = false := rfl
      have hy' : dropTag ("hcl".data ++ content) = content := by
        unfold dropTag
        rw [if_neg (by rw [hnt]; exact Bool.false_ne_true),
          if_pos (startsL_append_self _ _)]
        exact List.drop_left "hcl".data content
      refine ⟨a0, "hcl".data ++ content, post, ?_, hfirst1, ?_, ?_⟩
      · rw [hcs1, hr0eq, hdec2]
        simp [List.append_assoc]
      · rw [hy']
        exact hfirst2
      · rw [hpy, hy']
    · have hdtid : dropTag r0 = r0 := by
        unfold dropTag
        rw [if_neg h9, if_neg h3]
      have hr0c : r0 = content ++ tripleBt ++ post := by
        rw [← hdtid]
        exact hdec2
      have hcpre : content <+: r0 :=
        ⟨tripleBt ++ post, by rw [hr0c]; simp [List.append_assoc]⟩
      have hnt : startsL "terraform".data content = false := by
        cases hq : startsL "terraform".data content with
        | false => rfl
        | true => exact absurd (startsL_of_pfx hq hcpre) h9
      have hnh : startsL "hcl".data content = false := by
        cases hq : startsL "hcl".data content with
        | false => rfl
        | true => exact absurd (startsL_of_pfx hq hcpre) h3
      have hy' : dropTag content = content := by
        unfold dropTag
        rw [if_neg (by rw [hnt]; exact Bool.false_ne_true),
          if_neg (by rw [hnh]; exact Bool.false_ne_true)]
      refine ⟨a0, content, post, ?_, hfirst1, ?_, ?_⟩
      · rw [hcs1, hr0c]
        simp [List.append_assoc]
      · rw [hy']
        exact hfirst2
      · rw [hpy, hy']

/-- C8: the content stored by `modify_files` is the whole response when the
response contains no pair of fences; when it does contain a fenced block, the
stored content is exactly the interior of the first block — opening at the
first fence (nothing before it completes a fence), the optional
`terraform`/`hcl` tag skipped, closing at the first subsequent fence — with
surrounding whitespace stripped. -/
theorem extractStoredContent_fence (resp : String) :
    ((∀ x y z : List Char, resp.data ≠ x ++ tripleBt ++ y ++ tripleBt ++ z) →
      extractStoredContent resp = resp)
    ∧ (∀ x y z : List Char, resp.data = x ++ tripleBt ++ y ++ tripleBt ++ z →
      ∃ x' y' z', resp.data = x' ++ tripleBt ++ y' ++ tripleBt ++ z'
        ∧ hasTriple (x' ++ [backtickChar, backtickChar]) = false
        ∧ hasTriple (dropTag y' ++ [backtickChar, backtickChar]) = false
        ∧ extractStoredContent resp = ⟨pyStripL (dropTag y')⟩) := by
  constructor
  · intro hno
    unfold extractStoredContent
    cases hf : pyFence resp.data with
    | none => rfl
    | some g =>
      exfalso
      obtain ⟨x, y, z, hxyz⟩ := pyFence_some_decomp resp.data g hf
      exact hno x y z hxyz
  · intro x y z hdec
    obtain ⟨x', y', z', h1, h2, h3, h4⟩ := pyFence_spec resp.data x y z hdec
    refine ⟨x', y', z', h1, h2, h3, ?_⟩
    unfold extractStoredContent
    rw [h4]

/-- C8, witness: the characterization applied to a concrete response holding
one `hcl`-tagged block. -/
theorem extractStoredContent_fence_applied :
    ∃ x' y' z', ("x```hcl\n a\n``` tail" : String).data
        = x' ++ tripleBt ++ y' ++ tripleBt ++ z'
      ∧ hasTriple (x' ++ [backtickChar, backtickChar]) = false
      ∧ hasTriple (dropTag y' ++ [backtickChar, backtickChar]) = false
      ∧ extractStoredContent "x```hcl\n a\n``` tail" = ⟨pyStripL (dropTag y')⟩ :=
  (extractStoredContent_fence "x```hcl\n a\n``` tail").2
    "x".data "hcl\n a\n".data " tail".data (by decide)

/-! ### C9: `apply_modifications` -/

/-- A filesystem with file contents, for the write-back step. -/
structure ContentFS where
  files : List (String × String)
  dirs : List String

/-- Writing a file: overwrite the entry when present, append it otherwise. -/
def setFile (fsf : List (String × String)) (p c : String) : List (String × String) :=
  if fsf.any (fun q => q.1 == p) then
    fsf.map (fun q => if q.1 == p then (p, c) else q)
  else fsf ++ [(p, c)]

/-- The chain of a path and its ancestors, fuel-bounded (`dirname` reaches a
fixpoint within the path's length). -/
def ancestorChain : Nat → String → List String
  | 0, p => [p]
  | fuel + 1, p =>
    let d := dirnameStr p
    if d == p || d == "" then [p]
    else p :: ancestorChain fuel d

/-- `os.makedirs(p, exist_ok=True)`: the directory and its missing ancestors
are created.  Failure when an ancestor exists as a regular file is outside
the model. -/
def makeDirs (fs : ContentFS) (p : String) : ContentFS :=
  { fs with dirs := fs.dirs ++ ancestorChain p.data.length (normpath p) }

/-- `apply_modifications`: for each (path, content) pair the parent directory
is created; in dry-run mode the content is only printed; otherwise the write
happens when the write oracle allows it, and the path is recorded on success;
a failed write is caught and skipped, leaving the remaining files to be
processed. -/
def applyModifications (localDir : String) (writeOk : String → Bool) :
    ContentFS → List (String × String) → Bool → ContentFS × List String
  | fs, [], _ => (fs, [])
  | fs, (fp, content) :: rest, dryRun =>
    let full := joinPath localDir fp
    let fs1 := makeDirs fs (dirnameStr full)
    if dryRun then applyModifications localDir writeOk fs1 rest dryRun
    else if writeOk full then
      let fs2 := { fs1 with files := setFile fs1.files (normpath full) content }
      let r := applyModifications localDir writeOk fs2 rest dryRun
      (r.1, fp :: r.2)
    else applyModifications localDir writeOk fs1 rest dryRun

/-- C9: with `dry_run=True`, `apply_modifications` changes no file content
(the file map of the filesystem is returned exactly as it was; only
directories may be created by `os.makedirs`) and returns the empty list; with
`dry_run=False` it returns exactly the paths whose writes succeeded, in
order — a failed write is skipped while the remaining files are still
processed. -/
theorem applyModifications_dryRun_and_results (localDir : String)
    (writeOk : String → Bool) (fs : ContentFS) (mods : List (String × String)) :
    ((applyModifications localDir writeOk fs mods true).1.files = fs.files
      ∧ (applyModifications localDir writeOk fs mods true).2 = [])
    ∧ (applyModifications localDir writeOk fs mods false).2
        = (mods.filter (fun m => writeOk (joinPath localDir m.1))).map Prod.fst := by
  constructor
  · induction mods generalizing fs with
    | nil => exact ⟨rfl, rfl⟩
    | cons m rest ih =>
      obtain ⟨fp, content⟩ := m
      rw [applyModifications, if_pos rfl]
      exact ih _
  · induction mods generalizing fs with
    | nil => rfl
    | cons m rest ih =>
      obtain ⟨fp, content⟩ := m
      rw [applyModifications,
        if_neg (by exact Bool.false_ne_true)]
      cases hw : writeOk (joinPath localDir fp) with
      | true =>
        rw [if_pos rfl]
        dsimp only
        rw [ih _, List.filter_cons]
        dsimp only
        rw [hw, if_pos rfl]
        rfl
      | false =>
        rw [if_neg (by exact Bool.false_ne_true)]
        rw [ih _, List.filter_cons]
        dsimp only
        rw [hw, if_neg (by exact Bool.false_ne_true)]
